import Mathlib

/-!
Verification development for the youtube-osint repository.

Part 1 models the social-identifier extraction engine of
src/modules/utils.py (function extract_social_media): a small
backtracking regular-expression engine over lists of characters, the
pattern table of the sixteen categories, and the cleanup stage
(flatten, strip, drop empties, deduplicate preserving first-seen order).

Part 2 models the engagement and performance scoring functions of
src/main.py (calculate_engagement_metrics, calculate_virality_score,
calculate_performance_score, calculate_content_effectiveness,
simulate_audience_retention, calculate_growth_potential,
get_performance_category).

Modelling conventions:
- character classes follow the ASCII ranges written in the source
  patterns; Python treats backslash-w and backslash-d as Unicode
  classes, and the inputs exercised here are ASCII;
- Python float arithmetic is modelled by exact rational arithmetic,
  and math.log10 by Real.logb 10; round(x, 2) is modelled by rounding
  100 * x to the nearest integer (the model rounds halves up while
  Python rounds halves to even; no statement below sits on a tie);
- list(set(xs)) in the source returns the distinct elements of xs in
  an implementation-defined, hash-dependent iteration order. Two
  models are used: the deterministic listSet reads that order as
  first-occurrence order and supports the order-insensitive
  statements; runRuleOrd and extract_social_media_ord carry the order
  as an explicit parameter, admissible when it permutes the distinct
  elements, which is all that list(set(xs)) guarantees. Statements
  about the order of extraction results are made over every
  admissible order.
-/

namespace YtOsint

/-! ### Character classes used by the patterns -/

/-- Class A-Z a-z, written as ASCII code ranges. -/
def ascAlpha (c : Char) : Bool := (65 ≤ c.toNat && c.toNat ≤ 90) || (97 ≤ c.toNat && c.toNat ≤ 122)

/-- Class 0-9. -/
def ascDigit (c : Char) : Bool := 48 ≤ c.toNat && c.toNat ≤ 57

/-- Class of word characters A-Z a-z 0-9 underscore, the class written
backslash-w in the source patterns. -/
def wordChar (c : Char) : Bool := ascAlpha c || ascDigit c || c == '_'

/-- Handle class of the instagram and tiktok patterns: word characters
plus the dot. -/
def instaChar (c : Char) : Bool := wordChar c || c == '.'

/-- Class of the facebook, website, snapchat, pinterest and github
patterns: word characters plus dot and hyphen. -/
def fbChar (c : Char) : Bool := wordChar c || c == '.' || c == '-'

/-- Local-part class of the email pattern. -/
def emailLocalChar (c : Char) : Bool :=
  ascAlpha c || ascDigit c || c == '.' || c == '_' || c == '%' || c == '+' || c == '-'

/-- Domain class of the email pattern: letters, digits, dot, hyphen. -/
def emailDomainChar (c : Char) : Bool := ascAlpha c || ascDigit c || c == '.' || c == '-'

/-- Whitespace class, the class written backslash-s in the source. -/
def wsChar (c : Char) : Bool :=
  c.toNat == 32 || c.toNat == 9 || c.toNat == 10 || c.toNat == 11 ||
    c.toNat == 12 || c.toNat == 13

/-- Separator class of the phone patterns: hyphen, dot, whitespace. -/
def sepChar (c : Char) : Bool := c == '-' || c == '.' || wsChar c

/-- Class of word characters plus hyphen, used by the linkedin,
youtube, reddit and discord patterns. -/
def wordDashChar (c : Char) : Bool := wordChar c || c == '-'

/-! ### Regular expression syntax

The abstract syntax covers exactly the constructs appearing in the
source patterns: literals, character classes, greedy bounded or
unbounded repetition of a class, concatenation, prioritized
alternation, greedy option, capturing groups, and the word-boundary
anchor. Every repetition in the source patterns has a single character
class as its body, which the rep constructor reflects. -/

inductive RE where
  | eps : RE
  | lit : List Char → RE
  | cls : (Char → Bool) → RE
  | rep : (Char → Bool) → Nat → Option Nat → RE
  | seq : RE → RE → RE
  | alt : RE → RE → RE
  | opt : RE → RE
  | grp : Nat → RE → RE
  | wb : RE

/-- Concatenation of a list of expressions. -/
def res (l : List RE) : RE := l.foldr RE.seq RE.eps

/-- An expression that never matches, used as the base of list
alternation. -/
def reFail : RE := RE.cls (fun _ => false)

/-- Prioritized alternation of a list of expressions, first listed
first tried, exactly as Python tries the branches of a pattern. -/
def ralt (l : List RE) : RE := l.foldr RE.alt reFail

/-- Literal from a string. -/
def rlit (s : String) : RE := RE.lit s.toList

/-! ### The backtracking matcher

A match outcome is a triple of the consumed characters, the captured
groups as pairs of group index and captured characters, and the
remaining input. The matcher returns every outcome in backtracking
priority order; its head is the outcome Python produces. The prev
argument carries the character immediately before the current
position, which the word-boundary anchor consults. -/

/-- Last consumed character, falling back to the previous one when
nothing was consumed. -/
def lastChar (prev : Option Char) (consumed : List Char) : Option Char :=
  match consumed.getLast? with
  | some c => some c
  | none => prev

/-- Word-ness of an optional character; the ends of the input count as
non-word, as in Python. -/
def isWordOpt (oc : Option Char) : Bool :=
  match oc with
  | some c => wordChar c
  | none => false

/-- Longest number of characters a greedy class repetition can take
from the input, given its optional upper bound. -/
def repTop (p : Char → Bool) (hi : Option Nat) (s : List Char) : Nat :=
  match hi with
  | none => (s.takeWhile p).length
  | some b => min b (s.takeWhile p).length

theorem repTop_le (p : Char → Bool) (hi : Option Nat) (s : List Char) :
    repTop p hi s ≤ s.length := by
  have hm : (s.takeWhile p).length ≤ s.length := (List.takeWhile_sublist p).length_le
  cases hi <;> simp [repTop] <;> omega

/-- All match outcomes of an expression on an input, in backtracking
priority order. Greedy repetition lists the longest take first;
alternation lists the left branch first. -/
def mrun : RE → Option Char → List Char → List (List Char × List (Nat × List Char) × List Char)
  | RE.eps, _, s => [([], [], s)]
  | RE.lit cs, _, s =>
      if cs.isPrefixOf s then [(cs, [], s.drop cs.length)] else []
  | RE.cls p, _, s =>
      match s with
      | [] => []
      | c :: r => if p c then [([c], [], r)] else []
  | RE.rep p lo hi, _, s =>
      if repTop p hi s < lo then []
      else (List.range (repTop p hi s + 1 - lo)).map
        (fun i => (s.take (repTop p hi s - i), [], s.drop (repTop p hi s - i)))
  | RE.seq a b, prev, s =>
      (mrun a prev s).flatMap (fun x =>
        (mrun b (lastChar prev x.1) x.2.2).map (fun y => (x.1 ++ y.1, x.2.1 ++ y.2.1, y.2.2)))
  | RE.alt a b, prev, s => mrun a prev s ++ mrun b prev s
  | RE.opt a, prev, s => mrun a prev s ++ [([], [], s)]
  | RE.grp i a, prev, s =>
      (mrun a prev s).map (fun x => (x.1, x.2.1 ++ [(i, x.1)], x.2.2))
  | RE.wb, prev, s =>
      if isWordOpt s.head? != isWordOpt prev then [([], [], s)] else []

/-! ### The findall scan

Python findall scans left to right: at each position it takes the
first match outcome, records its groups, and resumes after the
consumed characters, advancing one character after an empty match or a
failure. The recorded item is the full match when the pattern has no
capturing group, and otherwise the list of group captures in index
order with the empty string for a group that did not participate. -/

/-- Captured characters of a group index, empty when the group did not
participate in the match. -/
def capLookup (i : Nat) (caps : List (Nat × List Char)) : List Char :=
  match caps.find? (fun p => p.1 == i) with
  | some p => p.2
  | none => []

/-- Item recorded for one match: the full match for a groupless
pattern, otherwise the group captures in index order. -/
def groupsOf (nG : Nat) (caps : List (Nat × List Char)) (consumed : List Char) : List String :=
  if nG = 0 then [String.mk consumed]
  else (List.range nG).map (fun i => String.mk (capLookup (i + 1) caps))

/-- The scan of Python findall over the input: at each position take
the first outcome, record its item, and resume after the consumed
characters, advancing one character after an empty match or a
failure. Resumption drops one less than the consumed length from the
tail, which is the position right after the consumed prefix. -/
def scanList (r : RE) (nG : Nat) : Option Char → (s : List Char) → List (List String)
  | prev, [] =>
      match mrun r prev [] with
      | [] => []
      | x :: _ => [groupsOf nG x.2.1 x.1]
  | prev, c :: rest =>
      match mrun r prev (c :: rest) with
      | [] => scanList r nG (some c) rest
      | x :: _ =>
          if x.1.isEmpty then
            groupsOf nG x.2.1 x.1 :: scanList r nG (some c) rest
          else
            groupsOf nG x.2.1 x.1 :: scanList r nG (lastChar (some c) x.1)
              (rest.drop (x.1.length - 1))
  termination_by _ s => s.length
  decreasing_by
    all_goals simp
    all_goals omega

/-- Python re.findall on a pattern with nG capturing groups. -/
def findall (r : RE) (nG : Nat) (text : List Char) : List (List String) :=
  scanList r nG none text

/-! ### The cleanup stage of extract_social_media

The source builds, per category, the concatenation of list(set(...))
over one or more findall results, then flattens tuples into individual
candidate strings, strips whitespace, drops empty strings, and removes
duplicates while keeping the first occurrence of each string. -/

/-- Python str.strip on both ends: leading and trailing whitespace
removed. -/
def pyStrip (l : List Char) : List Char :=
  ((l.dropWhile wsChar).reverse.dropWhile wsChar).reverse

/-- Strip of a string value. -/
def stripStr (s : String) : String := String.mk (pyStrip s.toList)

/-- Deduplication keeping the first occurrence, the seen-set loop of
the source cleanup; comparison is literal equality, with no case
folding. -/
def dedupSeen {α : Type} [DecidableEq α] (seen : List α) : List α → List α
  | [] => []
  | x :: xs => if x ∈ seen then dedupSeen seen xs else x :: dedupSeen (x :: seen) xs

/-- Deterministic reading of list(set(xs)) in the source: duplicates
removed, the implementation-defined set iteration order read as
first-occurrence order. The source does not fix that order; runRuleOrd
below makes it an explicit parameter, and every statement about the
order of extraction results quantifies over the admissible orders (see
the header note). -/
def listSet (l : List (List String)) : List (List String) := dedupSeen [] l

/-- Flattening of match items into stripped non-empty candidate
strings, in item order: the first half of the cleanup loop. -/
def flattenStrip (items : List (List String)) : List String :=
  items.flatMap (fun m => (m.map stripStr).filter (fun s => s ≠ ""))

/-- The full cleanup applied to the list of match items of one
category. -/
def cleanValues (items : List (List String)) : List String :=
  dedupSeen [] (flattenStrip items)

/-! ### The pattern table

One Rule is one findall call of the source: a pattern and its number
of capturing groups. A category maps to the ordered list of its
rules. -/

structure Rule where
  re : RE
  nGroups : Nat

/-- One findall call wrapped in list(set(...)), as in the source. -/
def runRule (ru : Rule) (text : List Char) : List (List String) :=
  listSet (findall ru.re ru.nGroups text)

/-- Scheme part https or http followed by the separator, written
https?:// in the source. -/
def reScheme : RE := res [rlit "http", RE.opt (rlit "s"), rlit "://"]

/-- Optional www. part written (?:www\.)? in the source. -/
def reWww : RE := RE.opt (rlit "www.")

/-- Email rule: word boundary, local part, at sign, domain, dot, top
level of length at least two, word boundary; no capturing group. -/
def emailRule : Rule :=
  ⟨res [RE.wb, RE.rep emailLocalChar 1 none, rlit "@", RE.rep emailDomainChar 1 none,
    rlit ".", RE.rep ascAlpha 2 none, RE.wb], 0⟩

/-- Twitter rule one: alternation of a twitter.com or x.com profile
address capturing group one, and a bare at-handle capturing group two,
both of one to fifteen word characters, followed by a word boundary. -/
def twitterRule1 : Rule :=
  ⟨RE.seq
    (RE.alt
      (res [reScheme, reWww, RE.alt (rlit "twitter.com") (rlit "x.com"), rlit "/",
        RE.grp 1 (RE.rep wordChar 1 (some 15))])
      (res [rlit "@", RE.grp 2 (RE.rep wordChar 1 (some 15))]))
    RE.wb, 2⟩

/-- Twitter rule two: bare twitter.com/ followed by the handle. -/
def twitterRule2 : Rule :=
  ⟨res [rlit "twitter.com/", RE.grp 1 (RE.rep wordChar 1 (some 15))], 1⟩

/-- Instagram rule one: profile address or bare at-handle of one to
thirty characters from the word-or-dot class, then a word boundary. -/
def instagramRule1 : Rule :=
  ⟨RE.seq
    (RE.alt
      (res [reScheme, reWww, rlit "instagram.com/", RE.grp 1 (RE.rep instaChar 1 (some 30))])
      (res [rlit "@", RE.grp 2 (RE.rep instaChar 1 (some 30))]))
    RE.wb, 2⟩

/-- Instagram rule two: bare instagram.com/ followed by the handle. -/
def instagramRule2 : Rule :=
  ⟨res [rlit "instagram.com/", RE.grp 1 (RE.rep instaChar 1 (some 30))], 1⟩

/-- Facebook rule one: facebook.com address with optional pages/ or
profile.php?id= part capturing group one, or fb.com address capturing
group two. -/
def facebookRule1 : Rule :=
  ⟨RE.alt
    (res [reScheme, reWww, rlit "facebook.com/",
      RE.opt (RE.alt (rlit "pages/") (rlit "profile.php?id=")),
      RE.grp 1 (RE.rep fbChar 1 none)])
    (res [rlit "fb.com/", RE.grp 2 (RE.rep fbChar 1 none)]), 2⟩

/-- Facebook rule two: group addresses. -/
def facebookRule2 : Rule :=
  ⟨res [rlit "facebook.com/groups/", RE.grp 1 (RE.rep fbChar 1 none)], 1⟩

/-- TikTok rule one: tiktok.com address with optional at sign
capturing group one, or bare at-handle capturing group two, of one to
twenty-four word-or-dot characters, then a word boundary. -/
def tiktokRule1 : Rule :=
  ⟨RE.seq
    (RE.alt
      (res [reScheme, reWww, rlit "tiktok.com/", RE.opt (rlit "@"),
        RE.grp 1 (RE.rep instaChar 1 (some 24))])
      (res [rlit "@", RE.grp 2 (RE.rep instaChar 1 (some 24))]))
    RE.wb, 2⟩

/-- TikTok rule two: bare tiktok.com/ with optional at sign. -/
def tiktokRule2 : Rule :=
  ⟨res [rlit "tiktok.com/", RE.opt (rlit "@"), RE.grp 1 (RE.rep instaChar 1 (some 24))], 1⟩

/-- Discord rule one: three invite address forms, capturing groups one
to three. -/
def discordRule1 : Rule :=
  ⟨ralt [res [rlit "discord.gg/", RE.grp 1 (RE.rep wordDashChar 1 none)],
    res [rlit "discordapp.com/invite/", RE.grp 2 (RE.rep wordDashChar 1 none)],
    res [rlit "discord.com/invite/", RE.grp 3 (RE.rep wordDashChar 1 none)]], 3⟩

/-- Discord rule two: discord.gg invites only. -/
def discordRule2 : Rule :=
  ⟨res [rlit "discord.gg/", RE.grp 1 (RE.rep wordDashChar 1 none)], 1⟩

/-- Telegram rule one: t.me, telegram.me or telegram.dog addresses
with a handle of five to thirty-two word characters. -/
def telegramRule1 : Rule :=
  ⟨res [ralt [rlit "t.me/", rlit "telegram.me/", rlit "telegram.dog/"],
    RE.grp 1 (RE.rep wordChar 5 (some 32))], 1⟩

/-- Telegram rule two: t.me addresses only. -/
def telegramRule2 : Rule :=
  ⟨res [rlit "t.me/", RE.grp 1 (RE.rep wordChar 5 (some 32))], 1⟩

/-- Website rule one: scheme-prefixed domain with optional path; the
captured group is the domain. -/
def websiteRule1 : Rule :=
  ⟨res [reScheme, reWww,
    RE.grp 1 (res [RE.rep fbChar 1 none, rlit ".", RE.rep ascAlpha 2 none]),
    RE.opt (res [rlit "/", RE.rep fbChar 0 none])], 1⟩

/-- Website rule two: bare domain-looking token with optional www. -/
def websiteRule2 : Rule :=
  ⟨res [reWww, RE.grp 1 (res [RE.rep fbChar 1 none, rlit ".", RE.rep ascAlpha 2 none])], 1⟩

/-- Country-code alternation of the first phone pattern, transcribed
in source order. -/
def phoneCodes : List String :=
  ["1", "44", "91", "61", "86", "49", "33", "81", "82", "55", "52", "34", "39", "31",
   "46", "47", "45", "43", "41", "48", "351", "353", "358", "372", "371", "370", "375",
   "380", "996", "995", "994", "993", "992", "976", "975", "974", "973", "972", "971",
   "968", "967", "966", "965", "964", "963", "962", "961", "880", "855", "856", "95",
   "94", "93", "92", "91", "90", "98", "20", "27", "234", "233", "232", "231", "225",
   "224", "223", "221", "220", "218", "213", "212", "211", "98", "971", "966", "965",
   "964", "963", "962", "961", "968", "967", "972", "973", "974", "975", "976", "977",
   "94", "93", "92", "91", "90", "81", "82", "86", "852", "853", "886", "65", "60",
   "63", "62", "84", "855", "856", "95", "673", "674", "675", "676", "679", "680",
   "685", "689", "682", "683", "686", "687", "689", "690", "691", "692", "699", "670",
   "672", "673", "674", "675", "676", "677", "678", "679", "680", "681", "682", "683",
   "684", "685", "686", "687", "688", "689", "690", "691", "692", "693", "694", "695",
   "696", "697", "698", "699"]

/-- Phone rule one: optional plus-prefixed country code with optional
trailing whitespace, then three, three and four digits with optional
separators and parentheses; no capturing group. -/
def phoneRule1 : Rule :=
  ⟨res [RE.opt (res [RE.opt (rlit "+"), ralt (phoneCodes.map rlit), RE.opt (RE.cls wsChar)]),
    RE.opt (RE.cls sepChar), RE.opt (rlit "("), RE.rep ascDigit 3 (some 3),
    RE.opt (rlit ")"), RE.opt (RE.cls sepChar), RE.rep ascDigit 3 (some 3),
    RE.opt (RE.cls sepChar), RE.rep ascDigit 4 (some 4)], 0⟩

/-- Phone rule two: optional plus, one to three digits, then the same
three, three and four digit core; no capturing group. -/
def phoneRule2 : Rule :=
  ⟨res [RE.opt (rlit "+"), RE.rep ascDigit 1 (some 3), RE.opt (RE.cls sepChar),
    RE.opt (rlit "("), RE.rep ascDigit 3 (some 3), RE.opt (rlit ")"),
    RE.opt (RE.cls sepChar), RE.rep ascDigit 3 (some 3), RE.opt (RE.cls sepChar),
    RE.rep ascDigit 4 (some 4)], 0⟩

/-- LinkedIn rule one: scheme-prefixed profile or company address. -/
def linkedinRule1 : Rule :=
  ⟨res [reScheme, reWww, rlit "linkedin.com/", RE.alt (rlit "in/") (rlit "company/"),
    RE.grp 1 (RE.rep wordDashChar 1 none)], 1⟩

/-- LinkedIn rule two: same without the scheme. -/
def linkedinRule2 : Rule :=
  ⟨res [rlit "linkedin.com/", RE.alt (rlit "in/") (rlit "company/"),
    RE.grp 1 (RE.rep wordDashChar 1 none)], 1⟩

/-- YouTube rule one: scheme-prefixed channel, custom, user or handle
address. -/
def youtubeRule1 : Rule :=
  ⟨res [reScheme, reWww, rlit "youtube.com/",
    ralt [rlit "channel/", rlit "c/", rlit "user/", rlit "@"],
    RE.grp 1 (RE.rep wordDashChar 1 none)], 1⟩

/-- YouTube rule two: same without the scheme. -/
def youtubeRule2 : Rule :=
  ⟨res [rlit "youtube.com/", ralt [rlit "channel/", rlit "c/", rlit "user/", rlit "@"],
    RE.grp 1 (RE.rep wordDashChar 1 none)], 1⟩

/-- Reddit rule one: scheme-prefixed user or subreddit address. -/
def redditRule1 : Rule :=
  ⟨res [reScheme, reWww, rlit "reddit.com/", ralt [rlit "u/", rlit "user/", rlit "r/"],
    RE.grp 1 (RE.rep wordDashChar 1 none)], 1⟩

/-- Reddit rule two: same without the scheme. -/
def redditRule2 : Rule :=
  ⟨res [rlit "reddit.com/", ralt [rlit "u/", rlit "user/", rlit "r/"],
    RE.grp 1 (RE.rep wordDashChar 1 none)], 1⟩

/-- Twitch rule one: scheme-prefixed channel address. -/
def twitchRule1 : Rule :=
  ⟨res [reScheme, reWww, rlit "twitch.tv/", RE.grp 1 (RE.rep wordChar 1 none)], 1⟩

/-- Twitch rule two: same without the scheme. -/
def twitchRule2 : Rule :=
  ⟨res [rlit "twitch.tv/", RE.grp 1 (RE.rep wordChar 1 none)], 1⟩

/-- Snapchat rule one: scheme-prefixed add address. -/
def snapchatRule1 : Rule :=
  ⟨res [reScheme, reWww, rlit "snapchat.com/add/", RE.grp 1 (RE.rep fbChar 1 none)], 1⟩

/-- Snapchat rule two: same without the scheme. -/
def snapchatRule2 : Rule :=
  ⟨res [rlit "snapchat.com/add/", RE.grp 1 (RE.rep fbChar 1 none)], 1⟩

/-- Pinterest rule one: scheme-prefixed address over six country
domains; no capturing group, so the full match is recorded. -/
def pinterestRule1 : Rule :=
  ⟨res [reScheme, reWww, rlit "pinterest.",
    ralt [rlit "com", rlit "co.uk", rlit "fr", rlit "de", rlit "it", rlit "es"],
    rlit "/", RE.rep fbChar 1 none], 0⟩

/-- Pinterest rule two: same without the scheme, capturing the path
segment. -/
def pinterestRule2 : Rule :=
  ⟨res [rlit "pinterest.", ralt [rlit "com", rlit "co.uk", rlit "fr", rlit "de",
    rlit "it", rlit "es"], rlit "/", RE.grp 1 (RE.rep fbChar 1 none)], 1⟩

/-- GitHub rule one: scheme-prefixed user or repository address; the
captured group is the user segment. -/
def githubRule1 : Rule :=
  ⟨res [reScheme, reWww, rlit "github.com/", RE.grp 1 (RE.rep fbChar 1 none),
    RE.opt (res [rlit "/", RE.rep fbChar 1 none])], 1⟩

/-- GitHub rule two: same without the scheme. -/
def githubRule2 : Rule :=
  ⟨res [rlit "github.com/", RE.grp 1 (RE.rep fbChar 1 none),
    RE.opt (res [rlit "/", RE.rep fbChar 1 none])], 1⟩

/-- The category table: the sixteen keys of the dict literal of
extract_social_media, each with its findall rules in source order. -/
def socialRules : List (String × List Rule) :=
  [("email", [emailRule]),
   ("twitter", [twitterRule1, twitterRule2]),
   ("instagram", [instagramRule1, instagramRule2]),
   ("facebook", [facebookRule1, facebookRule2]),
   ("tiktok", [tiktokRule1, tiktokRule2]),
   ("discord", [discordRule1, discordRule2]),
   ("telegram", [telegramRule1, telegramRule2]),
   ("website", [websiteRule1, websiteRule2]),
   ("phone", [phoneRule1, phoneRule2]),
   ("linkedin", [linkedinRule1, linkedinRule2]),
   ("youtube", [youtubeRule1, youtubeRule2]),
   ("reddit", [redditRule1, redditRule2]),
   ("twitch", [twitchRule1, twitchRule2]),
   ("snapchat", [snapchatRule1, snapchatRule2]),
   ("pinterest", [pinterestRule1, pinterestRule2]),
   ("github", [githubRule1, githubRule2])]

/-- Raw candidate items of one category before cleanup: the
concatenation, in rule order, of list(set(findall ...)) per rule,
exactly as the dict literal builds each value. -/
def rawItems (rules : List Rule) (text : List Char) : List (List String) :=
  (rules.map (fun ru => runRule ru text)).flatten

/-- The stream of flattened stripped non-empty candidates of one
category, in production order; the cleanup deduplicates this
stream. -/
def candidateStream (rules : List Rule) (text : List Char) : List String :=
  flattenStrip (rawItems rules text)

/-- Model of extract_social_media of src/modules/utils.py: the
sixteen-entry mapping from category name to cleaned value list. The
function is total, mirroring that the source raises no exception. -/
def extract_social_media (text : String) : List (String × List String) :=
  socialRules.map (fun kr => (kr.1, cleanValues (rawItems kr.2 text.toList)))

/-! ### The set iteration order made explicit

CPython iterates a set in a hash-dependent, implementation-defined
order, so list(set(xs)) guarantees only that the result lists the
distinct elements of xs, each once, in some order. The following
variants carry that order as an explicit function applied to the
deduplicated match list; an order function is admissible when its
result is a permutation of its argument. The deterministic model above
is the instance at the identity order. -/

/-- One findall call wrapped in list(set(...)) under an explicit set
iteration order applied to the deduplicated match list. -/
def runRuleOrd (ord : List (List String) → List (List String)) (ru : Rule)
    (text : List Char) : List (List String) :=
  ord (listSet (findall ru.re ru.nGroups text))

/-- Concatenated per-rule item lists of one category under an explicit
set iteration order. -/
def rawItemsOrd (ord : List (List String) → List (List String))
    (rules : List Rule) (text : List Char) : List (List String) :=
  (rules.map (fun ru => runRuleOrd ord ru text)).flatten

/-- The flattened stripped non-empty candidate stream of one category
under an explicit set iteration order: the stream the final cleanup
loop of the source receives. -/
def candidateStreamOrd (ord : List (List String) → List (List String))
    (rules : List Rule) (text : List Char) : List String :=
  flattenStrip (rawItemsOrd ord rules text)

/-- extract_social_media with the set iteration order explicit. -/
def extract_social_media_ord (ord : List (List String) → List (List String))
    (text : String) : List (String × List String) :=
  socialRules.map (fun kr => (kr.1, cleanValues (rawItemsOrd ord kr.2 text.toList)))

/-- Syntactic condition that an expression can never consume a
whitespace character: every literal and every class of the expression
excludes whitespace. The three bare-handle patterns satisfy it, which
bounds how far any of their matches can reach across a whitespace
delimiter. -/
def avoidsWs : RE → Prop
  | RE.eps => True
  | RE.lit cs => ∀ c ∈ cs, wsChar c = false
  | RE.cls p => ∀ c : Char, p c = true → wsChar c = false
  | RE.rep p _ _ => ∀ c : Char, p c = true → wsChar c = false
  | RE.seq a b => avoidsWs a ∧ avoidsWs b
  | RE.alt a b => avoidsWs a ∧ avoidsWs b
  | RE.opt a => avoidsWs a
  | RE.grp _ a => avoidsWs a
  | RE.wb => True

/-! ### The scoring functions of src/main.py

Counters are natural numbers; rates and scores are exact rationals.
The number of days since publication is a signed integer, as the
source computes it by subtracting the parsed publish date from the
current date; the value none models the except branch taken when the
date does not parse. The duration is the parsed number of seconds,
with none modelling the except branch of simulate_audience_retention.
Real numbers appear only where the source calls math.log10. -/

/-- Python round(x, 2): the nearest multiple of one hundredth. The
model rounds halves up where Python rounds halves to even; no claim
below evaluates at a tie. -/
def round2 (x : ℚ) : ℚ := (round (100 * x) : ℤ) / 100

/-- Clamp of a value between a lower and an upper bound, used to state
the formulas of the specification. -/
def clampQ (lo hi x : ℚ) : ℚ := min hi (max lo x)

/-- Model of calculate_virality_score of src/main.py. -/
def calculate_virality_score (V L C : ℕ) (daysSince : Option ℤ) (tagCount descLen : ℕ) : ℚ :=
  let base : ℚ := if 0 < V then ((L : ℚ) + C) / V * 100 else 0
  let age : ℚ :=
    match daysSince with
    | some d => max 0 (1 - (d : ℚ) / 365)
    | none => 1/2
  let cq : ℚ := 1 + (if 0 < tagCount then 1/5 else 0) + (if 100 < descLen then 1/5 else 0)
  min 100 (base * age * cq)

/-- Result record of calculate_engagement_metrics. -/
structure EngagementMetrics where
  like_rate : ℚ
  comment_rate : ℚ
  total_engagement_rate : ℚ
  engagement_score : ℚ
  engagement_level : String
  virality_score : ℚ
deriving DecidableEq

/-- Model of calculate_engagement_metrics of src/main.py. The level is
computed from the score before rounding, exactly as in the source; the
returned score field is the rounded value. -/
def calculate_engagement_metrics (V L C : ℕ) (daysSince : Option ℤ)
    (tagCount descLen : ℕ) : EngagementMetrics :=
  let like_rate : ℚ := if 0 < V then (L : ℚ) / V * 100 else 0
  let comment_rate : ℚ := if 0 < V then (C : ℚ) / V * 100 else 0
  let total_engagement_rate : ℚ := if 0 < V then ((L : ℚ) + C) / V * 100 else 0
  let engagement_score : ℚ := min 100 (like_rate * 2 + comment_rate * 10)
  let engagement_level : String :=
    if 70 ≤ engagement_score then "high"
    else if 30 ≤ engagement_score then "medium"
    else "low"
  { like_rate := round2 like_rate
    comment_rate := round2 comment_rate
    total_engagement_rate := round2 total_engagement_rate
    engagement_score := round2 engagement_score
    engagement_level := engagement_level
    virality_score := round2 (calculate_virality_score V L C daysSince tagCount descLen) }

/-- Model of calculate_performance_score of src/main.py; math.log10 is
Real.logb 10. -/
noncomputable def calculate_performance_score (V L C : ℕ) : ℝ :=
  let view_score : ℝ := min 100 (Real.logb 10 (max 1 (V : ℝ)) * 10)
  let engagement_score : ℝ := min 100 (((L : ℝ) + C) / max 1 (V : ℝ) * 1000)
  view_score * 0.6 + engagement_score * 0.4

/-- Model of get_performance_category of src/main.py. -/
noncomputable def get_performance_category (performance_score : ℝ) : String :=
  if 80 ≤ performance_score then "Excellent"
  else if 60 ≤ performance_score then "Good"
  else if 40 ≤ performance_score then "Average"
  else "Below Average"

/-- Model of calculate_content_effectiveness of src/main.py; the
caption argument is the caption string of the video record, compared
against the literal true as in the source. -/
def calculate_content_effectiveness (descLen tagCount : ℕ) (caption : String) : ℚ :=
  let description_score : ℚ := min 100 ((descLen : ℚ) / 10)
  let tag_score : ℚ := min 100 ((tagCount : ℚ) * 10)
  let caption_score : ℚ := if caption == "true" then 20 else 0
  description_score * 0.4 + tag_score * 0.4 + caption_score * 0.2

/-- Model of simulate_audience_retention of src/main.py: the
engagement ratio comes from an explicit view-count guard, and the
duration factor from the parsed duration, with 0.7 on the except
branch. -/
def simulate_audience_retention (V L : ℕ) (durSeconds : Option ℕ) : ℚ :=
  let engagement_ratio : ℚ := if 0 < V then (L : ℚ) / V else 0
  let duration_factor : ℚ :=
    match durSeconds with
    | some d => max (3/10) (1 - (d : ℚ) / 3600)
    | none => 7/10
  min 95 (max 5 (engagement_ratio * 100 * duration_factor))

/-- Model of calculate_growth_potential of src/main.py, as a function
of the three scores it reads from the record. -/
def calculate_growth_potential (engagement_score virality_score performance_score : ℚ) : ℚ :=
  engagement_score * 0.4 + virality_score * 0.3 + performance_score * 0.3

/-! ### Formulas named by the specification

These definitions follow the words of the specification and of the
claims, for comparison with the source-derived definitions above. -/

/-- Modelled from the spec: audience_retention with the max(1, V)
guard and the duration factor clamped into the interval from 0.3 to
1. -/
def retentionSpecFormula (V L d : ℕ) : ℚ :=
  clampQ 5 95 (100 * ((L : ℚ) / max 1 (V : ℚ)) * clampQ (3/10) 1 (1 - (d : ℚ) / 3600))

/-- Modelled from the spec: virality with the age factor clamped into
the unit interval. -/
def viralitySpecFormula (V L C : ℕ) (d : ℤ) (tagCount descLen : ℕ) : ℚ :=
  let base : ℚ := if 0 < V then ((L : ℚ) + C) / V * 100 else 0
  let age : ℚ := clampQ 0 1 (1 - (d : ℚ) / 365)
  let cq : ℚ := 1 + (if 0 < tagCount then 1/5 else 0) + (if 100 < descLen then 1/5 else 0)
  clampQ 0 100 (base * age * cq)

/-! ## Theorems

Helper lemmas about the cleanup stage, then one theorem per claim,
with witnesses and counterexamples as required. -/

theorem dedupSeen_mem {α : Type} [DecidableEq α] (a : α) :
    ∀ (l seen : List α), a ∈ dedupSeen seen l ↔ a ∈ l ∧ a ∉ seen := by
  intro l
  induction l with
  | nil => intro seen; simp [dedupSeen]
  | cons x xs ih =>
      intro seen
      by_cases hx : x ∈ seen
      · simp only [dedupSeen, if_pos hx, ih seen, List.mem_cons]
        by_cases hax : a = x
        · subst hax; tauto
        · tauto
      · simp only [dedupSeen, if_neg hx, List.mem_cons, ih (x :: seen)]
        by_cases hax : a = x
        · subst hax; tauto
        · tauto

theorem dedupSeen_nodup {α : Type} [DecidableEq α] :
    ∀ (l seen : List α), (dedupSeen seen l).Nodup := by
  intro l
  induction l with
  | nil => intro seen; simp [dedupSeen]
  | cons x xs ih =>
      intro seen
      by_cases hx : x ∈ seen
      · simpa [dedupSeen, if_pos hx] using ih seen
      · simp only [dedupSeen, if_neg hx, List.nodup_cons]
        refine ⟨fun hmem => ?_, ih (x :: seen)⟩
        have := (dedupSeen_mem x xs (x :: seen)).mp hmem
        exact this.2 (List.mem_cons_self x seen)

theorem dedupSeen_pairwise {α : Type} [DecidableEq α] :
    ∀ (l seen : List α),
      (dedupSeen seen l).Pairwise (fun a b => l.indexOf a < l.indexOf b) := by
  intro l
  induction l with
  | nil => intro seen; simp [dedupSeen]
  | cons x xs ih =>
      intro seen
      by_cases hx : x ∈ seen
      · simp only [dedupSeen, if_pos hx]
        refine List.Pairwise.imp_of_mem ?_ (ih seen)
        intro a b ha hb hab
        have haa := (dedupSeen_mem a xs seen).mp ha
        have hbb := (dedupSeen_mem b xs seen).mp hb
        have hax : a ≠ x := fun h => haa.2 (h ▸ hx)
        have hbx : b ≠ x := fun h => hbb.2 (h ▸ hx)
        rw [List.indexOf_cons_ne _ (Ne.symm hax), List.indexOf_cons_ne _ (Ne.symm hbx)]
        omega
      · simp only [dedupSeen, if_neg hx]
        refine List.Pairwise.cons ?_ ?_
        · intro b hb
          have hbb := (dedupSeen_mem b xs (x :: seen)).mp hb
          have hbx : b ≠ x := fun h => hbb.2 (h ▸ List.mem_cons_self x seen)
          rw [List.indexOf_cons_self, List.indexOf_cons_ne _ (Ne.symm hbx)]
          omega
        · refine List.Pairwise.imp_of_mem ?_ (ih (x :: seen))
          intro a b ha hb hab
          have haa := (dedupSeen_mem a xs (x :: seen)).mp ha
          have hbb := (dedupSeen_mem b xs (x :: seen)).mp hb
          have hax : a ≠ x := fun h => haa.2 (h ▸ List.mem_cons_self x seen)
          have hbx : b ≠ x := fun h => hbb.2 (h ▸ List.mem_cons_self x seen)
          rw [List.indexOf_cons_ne _ (Ne.symm hax), List.indexOf_cons_ne _ (Ne.symm hbx)]
          omega

theorem dropWhile_eq_self_of_head (p : Char → Bool) (l : List Char)
    (h : ∀ c, l.head? = some c → p c = false) : l.dropWhile p = l := by
  cases l with
  | nil => rfl
  | cons c t => simp [List.dropWhile_cons, h c rfl]

theorem pyStrip_head_not_ws (l : List Char) :
    ∀ c, (pyStrip l).head? = some c → wsChar c = false := by
  intro c hc
  unfold pyStrip at hc
  rw [List.head?_reverse] at hc
  have hsuf : (l.dropWhile wsChar).reverse.dropWhile wsChar <:+ (l.dropWhile wsChar).reverse :=
    List.dropWhile_suffix wsChar
  obtain ⟨t, ht⟩ := hsuf
  have hXne : (l.dropWhile wsChar).reverse.dropWhile wsChar ≠ [] := by
    intro h0
    rw [h0] at hc
    simp at hc
  have hc2 : ((l.dropWhile wsChar).reverse).getLast? = some c := by
    rw [← ht, List.getLast?_append_of_ne_nil _ hXne]
    exact hc
  rw [List.getLast?_reverse] at hc2
  have hdw := List.head?_dropWhile_not wsChar l
  rw [hc2] at hdw
  simpa using hdw

theorem pyStrip_last_not_ws (l : List Char) :
    ∀ c, (pyStrip l).getLast? = some c → wsChar c = false := by
  intro c hc
  unfold pyStrip at hc
  rw [List.getLast?_reverse] at hc
  have := List.head?_dropWhile_not wsChar (l.dropWhile wsChar).reverse
  rw [hc] at this
  simpa using this

theorem pyStrip_idem (l : List Char) : pyStrip (pyStrip l) = pyStrip l := by
  have h1 : (pyStrip l).dropWhile wsChar = pyStrip l :=
    dropWhile_eq_self_of_head wsChar (pyStrip l) (pyStrip_head_not_ws l)
  have h2 : (pyStrip l).reverse.dropWhile wsChar = (pyStrip l).reverse := by
    refine dropWhile_eq_self_of_head wsChar _ ?_
    intro c hc
    rw [List.head?_reverse] at hc
    exact pyStrip_last_not_ws l c hc
  show ((((pyStrip l).dropWhile wsChar).reverse.dropWhile wsChar)).reverse = pyStrip l
  rw [h1, h2, List.reverse_reverse]

theorem stripStr_idem (s : String) : stripStr (stripStr s) = stripStr s := by
  unfold stripStr
  show String.mk (pyStrip (String.mk (pyStrip s.toList)).toList) = _
  have : (String.mk (pyStrip s.toList)).toList = pyStrip s.toList := rfl
  rw [this, pyStrip_idem]

theorem pyStrip_eq_self (l : List Char) (h : ∀ c ∈ l, wsChar c = false) :
    pyStrip l = l := by
  unfold pyStrip
  have h1 : l.dropWhile wsChar = l := by
    refine dropWhile_eq_self_of_head wsChar l ?_
    intro c hc
    exact h c (by cases l with
      | nil => simp at hc
      | cons a t => simp at hc; simp [hc])
  rw [h1]
  have h2 : l.reverse.dropWhile wsChar = l.reverse := by
    refine dropWhile_eq_self_of_head wsChar _ ?_
    intro c hc
    refine h c ?_
    have : c ∈ l.reverse := by
      cases hrev : l.reverse with
      | nil => rw [hrev] at hc; simp at hc
      | cons a t => rw [hrev] at hc; simp at hc; simp [hrev, hc]
    simpa using this
  rw [h2, List.reverse_reverse]

theorem pyStrip_all_ws (l : List Char) (h : ∀ c ∈ l, wsChar c = true) :
    pyStrip l = [] := by
  unfold pyStrip
  have h1 : l.dropWhile wsChar = [] := by
    rw [List.dropWhile_eq_nil_iff]
    intro x hx; exact h x hx
  rw [h1]
  simp

theorem flattenStrip_mem (items : List (List String)) (s : String)
    (h : s ∈ flattenStrip items) : s ≠ "" ∧ stripStr s = s := by
  unfold flattenStrip at h
  rw [List.mem_flatMap] at h
  obtain ⟨m, _, hs⟩ := h
  rw [List.mem_filter] at hs
  obtain ⟨hmap, hne⟩ := hs
  rw [List.mem_map] at hmap
  obtain ⟨t, _, ht⟩ := hmap
  subst ht
  refine ⟨by simpa using hne, stripStr_idem t⟩

theorem scanList_nil (r : RE) (n : Nat) (prev : Option Char) :
    scanList r n prev [] =
      (match mrun r prev [] with
       | [] => []
       | x :: _ => [groupsOf n x.2.1 x.1]) := by
  conv_lhs => rw [scanList.eq_def]

theorem scanList_cons_eq (r : RE) (n : Nat) (prev : Option Char) (c : Char)
    (rest : List Char) :
    scanList r n prev (c :: rest) =
      (match mrun r prev (c :: rest) with
       | [] => scanList r n (some c) rest
       | x :: _ =>
           if x.1.isEmpty then
             groupsOf n x.2.1 x.1 :: scanList r n (some c) rest
           else
             groupsOf n x.2.1 x.1 ::
               scanList r n (lastChar (some c) x.1) (rest.drop (x.1.length - 1))) := by
  conv_lhs => rw [scanList.eq_def]

theorem scanList_cons_fail (r : RE) (n : Nat) (prev : Option Char) (c : Char)
    (rest : List Char) (h : mrun r prev (c :: rest) = []) :
    scanList r n prev (c :: rest) = scanList r n (some c) rest := by
  rw [scanList_cons_eq, h]

theorem scanList_cons_match (r : RE) (n : Nat) (prev : Option Char) (c : Char)
    (rest : List Char) (x : List Char × List (Nat × List Char) × List Char)
    (tl : List (List Char × List (Nat × List Char) × List Char))
    (h : mrun r prev (c :: rest) = x :: tl) (hne : x.1.isEmpty = false) :
    scanList r n prev (c :: rest) =
      groupsOf n x.2.1 x.1 ::
        scanList r n (lastChar (some c) x.1) (rest.drop (x.1.length - 1)) := by
  rw [scanList_cons_eq, h]
  simp [hne]

theorem findall_eq_nil_of (r : RE) (n : Nat) (h : mrun r none [] = []) :
    findall r n [] = [] := by
  rw [findall, scanList_nil, h]

theorem cleanValues_nil_of (rules : List Rule)
    (h : ∀ ru ∈ rules, findall ru.re ru.nGroups [] = []) :
    cleanValues (rawItems rules []) = [] := by
  have hraw : rawItems rules [] = [] := by
    unfold rawItems
    induction rules with
    | nil => rfl
    | cons ru t ih =>
        simp only [List.map_cons, List.flatten_cons]
        rw [ih (fun r hr => h r (List.mem_cons_of_mem _ hr))]
        have : runRule ru [] = [] := by
          unfold runRule listSet
          rw [h ru (List.mem_cons_self _ _)]
          rfl
        rw [this]
        rfl
  rw [hraw]
  rfl

theorem lookup_map_assoc {β : Type} (g : String × List Rule → β) :
    ∀ (l : List (String × List Rule)), (l.map Prod.fst).Nodup →
      ∀ k rs, (k, rs) ∈ l →
        (l.map (fun kr => (kr.1, g kr))).lookup k = some (g (k, rs)) := by
  intro l
  induction l with
  | nil => intro _ k rs h; simp at h
  | cons p t ih =>
      intro hnd k rs hmem
      simp only [List.map_cons, List.nodup_cons] at hnd
      rcases List.mem_cons.mp hmem with h | h
      · subst h
        simp [List.lookup]
      · have hk : k ≠ p.1 := by
          intro he
          exact hnd.1 (he ▸ List.mem_map_of_mem Prod.fst h)
        have hbeq : (k == p.1) = false := by simpa using hk
        simp only [List.map_cons, List.lookup, hbeq]
        exact ih hnd.2 k rs h

set_option maxRecDepth 4000 in
/-- Claim C7: for every input text, including the empty string, the
extractor is total and returns a mapping with exactly the sixteen
category keys in the order of the source dict, each a list of strings;
the empty text yields an empty list for every category. Totality of
extract_social_media is by construction, mirroring that the source
raises no exception. -/
theorem extract_total_sixteen_keys_c7 :
    (∀ text : String, (extract_social_media text).map Prod.fst =
      ["email", "twitter", "instagram", "facebook", "tiktok", "discord", "telegram",
       "website", "phone", "linkedin", "youtube", "reddit", "twitch", "snapchat",
       "pinterest", "github"]) ∧
    (["email", "twitter", "instagram", "facebook", "tiktok", "discord", "telegram",
      "website", "phone", "linkedin", "youtube", "reddit", "twitch", "snapchat",
      "pinterest", "github"] : List String).length = 16 ∧
    (["email", "twitter", "instagram", "facebook", "tiktok", "discord", "telegram",
      "website", "phone", "linkedin", "youtube", "reddit", "twitch", "snapchat",
      "pinterest", "github"] : List String).Nodup ∧
    extract_social_media "" =
      [("email", []), ("twitter", []), ("instagram", []), ("facebook", []),
       ("tiktok", []), ("discord", []), ("telegram", []), ("website", []),
       ("phone", []), ("linkedin", []), ("youtube", []), ("reddit", []),
       ("twitch", []), ("snapchat", []), ("pinterest", []), ("github", [])] := by
  refine ⟨fun text => rfl, rfl, by decide, ?_⟩
  have hnil : ∀ rules : List Rule,
      (∀ ru ∈ rules, mrun ru.re none [] = []) →
        cleanValues (rawItems rules ("" : String).toList) = [] := by
    intro rules h
    exact cleanValues_nil_of rules
      (fun ru hru => findall_eq_nil_of ru.re ru.nGroups (h ru hru))
  have hone : ∀ r1 : Rule, mrun r1.re none [] = [] →
      ∀ ru ∈ [r1], mrun ru.re none [] = [] := by
    intro r1 h1 ru hru
    rcases List.mem_singleton.mp hru with rfl
    exact h1
  have htwo : ∀ r1 r2 : Rule, mrun r1.re none [] = [] → mrun r2.re none [] = [] →
      ∀ ru ∈ [r1, r2], mrun ru.re none [] = [] := by
    intro r1 r2 h1 h2 ru hru
    rcases List.mem_cons.mp hru with rfl | hru
    · exact h1
    · rcases List.mem_singleton.mp hru with rfl
      exact h2
  simp only [extract_social_media, socialRules, List.map_cons, List.map_nil]
  rw [hnil _ (hone _ (by decide))]
  rw [hnil _ (htwo _ _ (by decide) (by decide))]
  rw [hnil _ (htwo _ _ (by decide) (by decide))]
  rw [hnil _ (htwo _ _ (by decide) (by decide))]
  rw [hnil _ (htwo _ _ (by decide) (by decide))]
  rw [hnil _ (htwo _ _ (by decide) (by decide))]
  rw [hnil _ (htwo _ _ (by decide) (by decide))]
  rw [hnil _ (htwo _ _ (by decide) (by decide))]
  rw [hnil _ (htwo _ _ (by decide) (by decide))]
  rw [hnil _ (htwo _ _ (by decide) (by decide))]
  rw [hnil _ (htwo _ _ (by decide) (by decide))]
  rw [hnil _ (htwo _ _ (by decide) (by decide))]
  rw [hnil _ (htwo _ _ (by decide) (by decide))]
  rw [hnil _ (htwo _ _ (by decide) (by decide))]
  rw [hnil _ (htwo _ _ (by decide) (by decide))]
  rw [hnil _ (htwo _ _ (by decide) (by decide))]

/-- Claim C8: every category list of every extraction is free of
duplicates, contains no empty and no whitespace-only string, and every
entry is trimmed on both ends. -/
theorem extract_values_clean_c8 (text : String) (k : String) (l : List String)
    (h : (k, l) ∈ extract_social_media text) :
    l.Nodup ∧ ∀ s ∈ l, s ≠ "" ∧ stripStr s = s ∧ ¬ (∀ c ∈ s.toList, wsChar c = true) := by
  unfold extract_social_media at h
  rw [List.mem_map] at h
  obtain ⟨kr, _, hkr⟩ := h
  have hl : l = cleanValues (rawItems kr.2 text.toList) := by
    have := congrArg Prod.snd hkr
    simpa using this.symm
  subst hl
  unfold cleanValues
  refine ⟨dedupSeen_nodup _ _, ?_⟩
  intro s hs
  have hmem : s ∈ flattenStrip (rawItems kr.2 text.toList) :=
    ((dedupSeen_mem s _ []).mp hs).1
  obtain ⟨hne, hstr⟩ := flattenStrip_mem _ s hmem
  refine ⟨hne, hstr, ?_⟩
  intro hall
  apply hne
  have : pyStrip s.toList = [] := pyStrip_all_ws s.toList hall
  have h2 : stripStr s = "" := by
    unfold stripStr
    rw [this]
  rw [hstr] at h2
  exact h2

theorem eq_cons_of_head_some {α : Type} {l : List α} {a : α} (h : l.head? = some a) :
    ∃ t, l = a :: t := by
  cases l with
  | nil => simp at h
  | cons x t =>
      simp only [List.head?_cons, Option.some.injEq] at h
      exact ⟨t, by rw [h]⟩

/-- Concrete findall evaluation: the email pattern on a text with two
case-distinct addresses produces them in text order. -/
theorem findall_email_two :
    findall emailRule.re emailRule.nGroups
      ['A', '@', 'b', '.', 'c', 'o', ' ', 'a', '@', 'b', '.', 'c', 'o'] =
      [["A@b.co"], ["a@b.co"]] := by
  unfold findall
  obtain ⟨tl1, ht1⟩ := eq_cons_of_head_some
    (show (mrun emailRule.re none
        ['A', '@', 'b', '.', 'c', 'o', ' ', 'a', '@', 'b', '.', 'c', 'o']).head? =
      some (['A', '@', 'b', '.', 'c', 'o'], [],
        [' ', 'a', '@', 'b', '.', 'c', 'o']) from by decide)
  rw [scanList_cons_match _ _ _ _ _ _ tl1 ht1 rfl]
  show (["A@b.co"] : List String) ::
      scanList emailRule.re emailRule.nGroups (some 'o')
        [' ', 'a', '@', 'b', '.', 'c', 'o'] = [["A@b.co"], ["a@b.co"]]
  rw [scanList_cons_fail _ _ _ _ _
    (show mrun emailRule.re (some 'o') [' ', 'a', '@', 'b', '.', 'c', 'o'] = []
      from by decide)]
  obtain ⟨tl2, ht2⟩ := eq_cons_of_head_some
    (show (mrun emailRule.re (some ' ') ['a', '@', 'b', '.', 'c', 'o']).head? =
      some (['a', '@', 'b', '.', 'c', 'o'], [], []) from by decide)
  rw [scanList_cons_match _ _ _ _ _ _ tl2 ht2 rfl]
  show (["A@b.co"] : List String) :: ["a@b.co"] ::
      scanList emailRule.re emailRule.nGroups (some 'o') [] = [["A@b.co"], ["a@b.co"]]
  rw [scanList_nil,
    show mrun emailRule.re (some 'o') [] = [] from by decide]

/-- Membership in the candidate stream is the same under every
admissible set iteration order: a permutation changes no membership. -/
theorem candidateStreamOrd_mem (ord : List (List String) → List (List String))
    (hord : ∀ l, (ord l).Perm l) (rules : List Rule) (t : List Char) (x : String) :
    x ∈ candidateStreamOrd ord rules t ↔ x ∈ candidateStream rules t := by
  unfold candidateStreamOrd candidateStream flattenStrip rawItemsOrd rawItems
  simp only [List.mem_flatMap, List.mem_flatten, List.mem_map]
  constructor
  · rintro ⟨m, ⟨lm, ⟨ru, hru, hlm⟩, hm⟩, hx⟩
    subst hlm
    exact ⟨m, ⟨runRule ru t, ⟨ru, hru, rfl⟩, ((hord _).mem_iff).mp hm⟩, hx⟩
  · rintro ⟨m, ⟨lm, ⟨ru, hru, hlm⟩, hm⟩, hx⟩
    subst hlm
    exact ⟨m, ⟨runRuleOrd ord ru t, ⟨ru, hru, rfl⟩, ((hord _).mem_iff).mpr hm⟩, hx⟩

/-- Claim C1 as amended: under every admissible set iteration order
the returned list of a category is the first-occurrence deduplication
of the candidate stream the cleanup loop receives; membership is
literal case-sensitive string equality and agrees with the stream
produced in pattern order, the result has no duplicates, and its order
follows the first occurrence positions in the received stream, whose
order across distinct candidates the program leaves to the set
iteration order. The deterministic model is the identity-order
instance. -/
theorem extract_dedup_first_seen_c1 (ord : List (List String) → List (List String))
    (hord : ∀ l, (ord l).Perm l) (text : String) (k : String) (rules : List Rule)
    (hk : (k, rules) ∈ socialRules) :
    (extract_social_media_ord ord text).lookup k =
      some (dedupSeen [] (candidateStreamOrd ord rules text.toList)) ∧
    (∀ x, x ∈ dedupSeen [] (candidateStreamOrd ord rules text.toList) ↔
      x ∈ candidateStream rules text.toList) ∧
    (dedupSeen [] (candidateStreamOrd ord rules text.toList)).Nodup ∧
    (dedupSeen [] (candidateStreamOrd ord rules text.toList)).Pairwise
      (fun a b => (candidateStreamOrd ord rules text.toList).indexOf a <
        (candidateStreamOrd ord rules text.toList).indexOf b) ∧
    extract_social_media text = extract_social_media_ord id text := by
  refine ⟨?_, ?_, dedupSeen_nodup _ _, dedupSeen_pairwise _ _, rfl⟩
  · exact lookup_map_assoc (fun kr => cleanValues (rawItemsOrd ord kr.2 text.toList))
      socialRules (by decide) k rules hk
  · intro x
    rw [dedupSeen_mem]
    constructor
    · intro hx
      exact (candidateStreamOrd_mem ord hord rules text.toList x).mp hx.1
    · intro hx
      exact ⟨(candidateStreamOrd_mem ord hord rules text.toList x).mpr hx, by simp⟩

/-- Witness for claim C1 at the email category, the reversal order and
a concrete text with two case-distinct addresses. -/
theorem extract_dedup_first_seen_c1_witness :
    (extract_social_media_ord List.reverse "A@b.co a@b.co").lookup "email" =
      some (dedupSeen [] (candidateStreamOrd List.reverse [emailRule]
        ("A@b.co a@b.co" : String).toList)) ∧
    (∀ x, x ∈ dedupSeen [] (candidateStreamOrd List.reverse [emailRule]
        ("A@b.co a@b.co" : String).toList) ↔
      x ∈ candidateStream [emailRule] ("A@b.co a@b.co" : String).toList) ∧
    (dedupSeen [] (candidateStreamOrd List.reverse [emailRule]
      ("A@b.co a@b.co" : String).toList)).Nodup ∧
    (dedupSeen [] (candidateStreamOrd List.reverse [emailRule]
      ("A@b.co a@b.co" : String).toList)).Pairwise
      (fun a b =>
        (candidateStreamOrd List.reverse [emailRule]
          ("A@b.co a@b.co" : String).toList).indexOf a <
        (candidateStreamOrd List.reverse [emailRule]
          ("A@b.co a@b.co" : String).toList).indexOf b) ∧
    extract_social_media "A@b.co a@b.co" = extract_social_media_ord id "A@b.co a@b.co" :=
  extract_dedup_first_seen_c1 List.reverse (fun l => List.reverse_perm l)
    "A@b.co a@b.co" "email" [emailRule] (List.mem_cons_self _ _)

/-- Counterexample to claim C1 as written: the reversal of the
deduplicated match list is an admissible set iteration order, and
under it the email category of the text with two addresses comes back
as the reversed pair, not in the first-production order of the
candidate stream; the program does not determine the order the claim
asserts. -/
theorem extract_order_not_determined_c1_cex :
    (runRuleOrd List.reverse emailRule
        (("A@b.co a@b.co" : String).toList)).Perm
      (runRule emailRule (("A@b.co a@b.co" : String).toList)) ∧
    (extract_social_media_ord List.reverse "A@b.co a@b.co").lookup "email" =
      some ["a@b.co", "A@b.co"] ∧
    dedupSeen [] (candidateStream [emailRule] (("A@b.co a@b.co" : String).toList)) =
      ["A@b.co", "a@b.co"] ∧
    (extract_social_media_ord List.reverse "A@b.co a@b.co").lookup "email" ≠
      some (dedupSeen [] (candidateStream [emailRule]
        (("A@b.co a@b.co" : String).toList))) := by
  have hfind : findall emailRule.re emailRule.nGroups
      (("A@b.co a@b.co" : String).toList) = [["A@b.co"], ["a@b.co"]] := by
    rw [show (("A@b.co a@b.co" : String).toList) =
      ['A', '@', 'b', '.', 'c', 'o', ' ', 'a', '@', 'b', '.', 'c', 'o'] from rfl]
    exact findall_email_two
  have hrun : runRule emailRule (("A@b.co a@b.co" : String).toList) =
      [["A@b.co"], ["a@b.co"]] := by
    unfold runRule
    rw [hfind]
    decide
  have hord : runRuleOrd List.reverse emailRule (("A@b.co a@b.co" : String).toList) =
      [["a@b.co"], ["A@b.co"]] := by
    unfold runRuleOrd
    rw [hfind]
    decide
  have hv2 : (extract_social_media_ord List.reverse "A@b.co a@b.co").lookup "email" =
      some ["a@b.co", "A@b.co"] := by
    rw [show (extract_social_media_ord List.reverse "A@b.co a@b.co").lookup "email" =
        some (cleanValues (rawItemsOrd List.reverse [emailRule]
          (("A@b.co a@b.co" : String).toList))) from
      lookup_map_assoc _ socialRules (by decide) _ _ (List.mem_cons_self _ _)]
    have hitems : rawItemsOrd List.reverse [emailRule]
        (("A@b.co a@b.co" : String).toList) = [["a@b.co"], ["A@b.co"]] := by
      unfold rawItemsOrd
      simp only [List.map_cons, List.map_nil, List.flatten_cons, List.flatten_nil,
        List.append_nil]
      exact hord
    rw [hitems]
    decide
  have hv3 : dedupSeen [] (candidateStream [emailRule]
      (("A@b.co a@b.co" : String).toList)) = ["A@b.co", "a@b.co"] := by
    unfold candidateStream rawItems
    simp only [List.map_cons, List.map_nil, List.flatten_cons, List.flatten_nil,
      List.append_nil]
    rw [hrun]
    decide
  refine ⟨List.reverse_perm _, hv2, hv3, ?_⟩
  rw [hv2, hv3]
  decide

/-! ### Lemmas for the shared bare-handle pattern (claim C10) -/

theorem wordChar_ranges (c : Char) (h : wordChar c = true) :
    (65 ≤ c.toNat ∧ c.toNat ≤ 90) ∨ (97 ≤ c.toNat ∧ c.toNat ≤ 122) ∨
      (48 ≤ c.toNat ∧ c.toNat ≤ 57) ∨ c.toNat = 95 := by
  unfold wordChar ascAlpha ascDigit at h
  simp only [Bool.or_eq_true, Bool.and_eq_true, decide_eq_true_eq, beq_iff_eq] at h
  rcases h with ((h | h) | h) | h
  · exact Or.inl h
  · exact Or.inr (Or.inl h)
  · exact Or.inr (Or.inr (Or.inl h))
  · subst h; exact Or.inr (Or.inr (Or.inr rfl))

theorem wordChar_not_ws (c : Char) (h : wordChar c = true) : wsChar c = false := by
  have hr := wordChar_ranges c h
  unfold wsChar
  simp only [Bool.or_eq_false_iff, beq_eq_false_iff_ne]
  omega

theorem wordChar_insta (c : Char) (h : wordChar c = true) : instaChar c = true := by
  simp [instaChar, h]

theorem instaChar_not_ws (c : Char) (h : instaChar c = true) : wsChar c = false := by
  unfold instaChar at h
  rcases Bool.or_eq_true_iff.mp h with h1 | h1
  · exact wordChar_not_ws c h1
  · have : c = '.' := by simpa using h1
    subst this
    decide

theorem instaChar_false_word (c : Char) (h : instaChar c = false) : wordChar c = false := by
  unfold instaChar at h
  simp only [Bool.or_eq_false_iff] at h
  exact h.1

theorem takeWhile_append_all (p : Char → Bool) (l r : List Char)
    (h : ∀ c ∈ l, p c = true) (h2 : ∀ c, r.head? = some c → p c = false) :
    (l ++ r).takeWhile p = l := by
  induction l with
  | nil =>
      cases r with
      | nil => rfl
      | cons c t =>
          simp only [List.nil_append, List.takeWhile]
          rw [h2 c rfl]
  | cons c t ih =>
      simp only [List.cons_append, List.takeWhile, h c (List.mem_cons_self c t),
        List.append_eq]
      rw [ih (fun x hx => h x (List.mem_cons_of_mem _ hx))]

theorem mrun_seq_eq (a b : RE) (prev : Option Char) (s : List Char) :
    mrun (RE.seq a b) prev s =
      (mrun a prev s).flatMap (fun x =>
        (mrun b (lastChar prev x.1) x.2.2).map
          (fun y => (x.1 ++ y.1, x.2.1 ++ y.2.1, y.2.2))) := rfl

theorem mrun_alt_eq (a b : RE) (prev : Option Char) (s : List Char) :
    mrun (RE.alt a b) prev s = mrun a prev s ++ mrun b prev s := rfl

theorem mrun_seq_nil (a b : RE) (prev : Option Char) (s : List Char)
    (h : mrun a prev s = []) : mrun (RE.seq a b) prev s = [] := by
  rw [mrun_seq_eq, h]
  rfl

theorem mrun_scheme_fail (U : RE) (prev : Option Char) (c : Char) (l : List Char)
    (h1 : c ≠ 'h') : mrun (RE.seq reScheme U) prev (c :: l) = [] := by
  have hb1 : (('h' : Char) == c) = false := beq_eq_false_iff_ne.mpr (Ne.symm h1)
  have hlit : mrun (RE.lit ['h', 't', 't', 'p']) prev (c :: l) = [] := by
    simp [mrun, List.isPrefixOf, hb1]
  exact mrun_seq_nil _ _ _ _ (mrun_seq_nil _ _ _ _ hlit)

theorem mrun_rep_head (p : Char → Bool) (B : Nat) (pv : Option Char) (h rest : List Char)
    (hne : h ≠ []) (hlen : h.length ≤ B) (hall : ∀ c ∈ h, p c = true)
    (hrest : ∀ c, rest.head? = some c → p c = false) :
    ∃ tl, mrun (RE.rep p 1 (some B)) pv (h ++ rest) = (h, [], rest) :: tl := by
  have htw : (h ++ rest).takeWhile p = h := takeWhile_append_all p h rest hall hrest
  have htop : repTop p (some B) (h ++ rest) = h.length := by
    unfold repTop
    rw [htw]
    exact min_eq_right hlen
  have hpos : 0 < h.length := List.length_pos.mpr hne
  obtain ⟨m, hm⟩ := Nat.exists_eq_succ_of_ne_zero (Nat.pos_iff_ne_zero.mp hpos)
  refine ⟨((List.range m).map Nat.succ).map
    (fun i => ((h ++ rest).take (h.length - i), [], (h ++ rest).drop (h.length - i))), ?_⟩
  show (if repTop p (some B) (h ++ rest) < 1 then [] else _) = _
  rw [htop, if_neg (by omega)]
  rw [show h.length + 1 - 1 = h.length from by omega, hm, List.range_succ_eq_map,
    List.map_cons]
  rw [show Nat.succ m - 0 = h.length from by omega]
  rw [← hm]
  rw [List.take_left, List.drop_left]

theorem mrun_at_arm_head (U : RE) (p : Char → Bool) (B gi : Nat) (prev : Option Char)
    (h rest : List Char)
    (hne : h ≠ []) (hlen : h.length ≤ B)
    (hall : ∀ c ∈ h, p c = true)
    (hword : ∀ c ∈ h, wordChar c = true)
    (hrest : ∀ c, rest.head? = some c → p c = false ∧ wordChar c = false) :
    ∃ tl, mrun (RE.seq (RE.alt (RE.seq reScheme U)
        (RE.seq (RE.lit ['@']) (RE.seq (RE.grp gi (RE.rep p 1 (some B))) RE.eps))) RE.wb)
        prev ('@' :: (h ++ rest)) =
      ('@' :: h, [(gi, h)], rest) :: tl := by
  obtain ⟨tl0, hrep⟩ := mrun_rep_head p B (some '@') h rest hne hlen hall
    (fun c hc => (hrest c hc).1)
  -- the capture group wraps the repetition
  have hgrp : mrun (RE.grp gi (RE.rep p 1 (some B))) (some '@') (h ++ rest) =
      (h, [(gi, h)], rest) :: tl0.map (fun x => (x.1, x.2.1 ++ [(gi, x.1)], x.2.2)) := by
    show (mrun (RE.rep p 1 (some B)) (some '@') (h ++ rest)).map _ = _
    rw [hrep]
    rfl
  -- then the trailing eps of the rule list
  have e1 : mrun (RE.seq (RE.grp gi (RE.rep p 1 (some B))) RE.eps) (some '@')
      (h ++ rest) =
      (h, [(gi, h)], rest) :: tl0.map (fun x => (x.1, x.2.1 ++ [(gi, x.1)], x.2.2)) := by
    rw [mrun_seq_eq, hgrp, List.flatMap_cons]
    simp [mrun]
  obtain ⟨tge, hge⟩ : ∃ t, mrun (RE.seq (RE.grp gi (RE.rep p 1 (some B))) RE.eps)
      (some '@') (h ++ rest) = (h, [(gi, h)], rest) :: t := ⟨_, e1⟩
  -- the at-sign literal in front
  have hlit : mrun (RE.lit ['@']) prev ('@' :: (h ++ rest)) = [(['@'], [], h ++ rest)] := by
    simp [mrun, List.isPrefixOf]
  have e2 : mrun (RE.seq (RE.lit ['@'])
      (RE.seq (RE.grp gi (RE.rep p 1 (some B))) RE.eps)) prev ('@' :: (h ++ rest)) =
      ('@' :: h, [(gi, h)], rest) :: tge.map (fun y => ('@' :: y.1, y.2.1, y.2.2)) := by
    rw [mrun_seq_eq, hlit, List.flatMap_cons]
    rw [show lastChar prev ['@'] = some '@' from rfl, hge]
    simp
  obtain ⟨tl1, harm⟩ : ∃ t, mrun (RE.seq (RE.lit ['@'])
      (RE.seq (RE.grp gi (RE.rep p 1 (some B))) RE.eps)) prev ('@' :: (h ++ rest)) =
      ('@' :: h, [(gi, h)], rest) :: t := ⟨_, e2⟩
  -- the alternation: the scheme arm fails at the at sign
  have halt : mrun (RE.alt (RE.seq reScheme U)
      (RE.seq (RE.lit ['@']) (RE.seq (RE.grp gi (RE.rep p 1 (some B))) RE.eps))) prev
      ('@' :: (h ++ rest)) = ('@' :: h, [(gi, h)], rest) :: tl1 := by
    rw [mrun_alt_eq, mrun_scheme_fail U prev '@' (h ++ rest) (by decide), harm]
    rfl
  -- the word boundary after the handle
  have hlast : lastChar prev ('@' :: h) = some (h.getLast hne) := by
    unfold lastChar
    cases h with
    | nil => exact absurd rfl hne
    | cons a t =>
        rw [List.getLast?_cons_cons, List.getLast?_eq_getLast (a :: t) (by simp)]
  have hword2 : isWordOpt (some (h.getLast hne)) = true := by
    unfold isWordOpt
    exact hword _ (List.getLast_mem hne)
  have hhead : isWordOpt rest.head? = false := by
    cases hr : rest.head? with
    | none => rfl
    | some c =>
        unfold isWordOpt
        exact (hrest c hr).2
  have hwb : mrun RE.wb (some (h.getLast hne)) rest = [([], [], rest)] := by
    have hcond : (isWordOpt rest.head? != isWordOpt (some (h.getLast hne))) = true := by
      rw [hhead, hword2]
      rfl
    show (if isWordOpt rest.head? != isWordOpt (some (h.getLast hne))
        then [(([] : List Char), ([] : List (Nat × List Char)), rest)] else []) =
      [([], [], rest)]
    rw [hcond]
    rfl
  have e3 : mrun (RE.seq (RE.alt (RE.seq reScheme U)
      (RE.seq (RE.lit ['@']) (RE.seq (RE.grp gi (RE.rep p 1 (some B))) RE.eps))) RE.wb)
      prev ('@' :: (h ++ rest)) =
      ('@' :: h, [(gi, h)], rest) ::
        tl1.flatMap (fun x => (mrun RE.wb (lastChar prev x.1) x.2.2).map
          (fun y => (x.1 ++ y.1, x.2.1 ++ y.2.1, y.2.2))) := by
    rw [mrun_seq_eq, halt, List.flatMap_cons, hlast, hwb]
    simp
  exact ⟨_, e3⟩

theorem groupsOf_two_at (h : List Char) :
    groupsOf 2 [(2, h)] ('@' :: h) = ["", String.mk h] := by
  have hr : List.range 2 = [0, 1] := by decide
  simp [groupsOf, hr, capLookup, List.find?]

/-- Every match outcome splits the input into its consumed prefix and
its remaining suffix. -/
theorem mrun_consumed_append (r : RE) :
    ∀ (prev : Option Char) (s : List Char) x, x ∈ mrun r prev s → x.1 ++ x.2.2 = s := by
  induction r with
  | eps =>
      intro prev s x hx
      simp only [mrun, List.mem_singleton] at hx
      subst hx
      rfl
  | lit cs =>
      intro prev s x hx
      simp only [mrun] at hx
      by_cases hp : cs.isPrefixOf s
      · rw [if_pos hp] at hx
        simp only [List.mem_singleton] at hx
        subst hx
        obtain ⟨t, ht⟩ := List.isPrefixOf_iff_prefix.mp hp
        rw [← ht, List.drop_left]
      · rw [if_neg hp] at hx
        simp at hx
  | cls p =>
      intro prev s x hx
      cases s with
      | nil => simp [mrun] at hx
      | cons d r2 =>
          simp only [mrun] at hx
          by_cases hp : p d = true
          · rw [if_pos hp] at hx
            simp only [List.mem_singleton] at hx
            subst hx
            rfl
          · rw [if_neg hp] at hx
            simp at hx
  | rep p lo hi =>
      intro prev s x hx
      simp only [mrun] at hx
      by_cases hlt : repTop p hi s < lo
      · rw [if_pos hlt] at hx
        simp at hx
      · rw [if_neg hlt] at hx
        simp only [List.mem_map, List.mem_range] at hx
        obtain ⟨i, _, hix⟩ := hx
        subst hix
        exact List.take_append_drop _ s
  | seq a b iha ihb =>
      intro prev s x hx
      rw [mrun_seq_eq] at hx
      simp only [List.mem_flatMap, List.mem_map] at hx
      obtain ⟨y, hy, z, hz, hzx⟩ := hx
      subst hzx
      have h1 := iha prev s y hy
      have h2 := ihb (lastChar prev y.1) y.2.2 z hz
      simp only
      rw [List.append_assoc, h2, h1]
  | alt a b iha ihb =>
      intro prev s x hx
      rw [mrun_alt_eq] at hx
      rcases List.mem_append.mp hx with hx | hx
      · exact iha prev s x hx
      · exact ihb prev s x hx
  | opt a iha =>
      intro prev s x hx
      simp only [mrun] at hx
      rcases List.mem_append.mp hx with hx | hx
      · exact iha prev s x hx
      · simp only [List.mem_singleton] at hx
        subst hx
        rfl
  | grp i a iha =>
      intro prev s x hx
      simp only [mrun, List.mem_map] at hx
      obtain ⟨y, hy, hyx⟩ := hx
      subst hyx
      exact iha prev s y hy
  | wb =>
      intro prev s x hx
      simp only [mrun] at hx
      by_cases hc : (isWordOpt s.head? != isWordOpt prev) = true
      · rw [if_pos hc] at hx
        simp only [List.mem_singleton] at hx
        subst hx
        rfl
      · rw [if_neg hc] at hx
        simp at hx

theorem mem_take_takeWhile (p : Char → Bool) (s : List Char) (n : Nat)
    (hn : n ≤ (s.takeWhile p).length) (c : Char) (hc : c ∈ s.take n) : p c = true := by
  have hs : s.take n = (s.takeWhile p).take n := by
    conv_lhs => rw [← List.takeWhile_append_dropWhile p s]
    exact List.take_append_of_le_length hn
  rw [hs] at hc
  exact List.mem_takeWhile_imp ((List.take_sublist _ _).subset hc)

/-- An expression whose literals and classes exclude whitespace never
consumes a whitespace character. -/
theorem mrun_avoidsWs (r : RE) :
    avoidsWs r → ∀ (prev : Option Char) (s : List Char) x, x ∈ mrun r prev s →
      ∀ c ∈ x.1, wsChar c = false := by
  induction r with
  | eps =>
      intro _ prev s x hx c hc
      simp only [mrun, List.mem_singleton] at hx
      subst hx
      simp at hc
  | lit cs =>
      intro hr prev s x hx c hc
      simp only [mrun] at hx
      by_cases hp : cs.isPrefixOf s
      · rw [if_pos hp] at hx
        simp only [List.mem_singleton] at hx
        subst hx
        exact hr c hc
      · rw [if_neg hp] at hx
        simp at hx
  | cls p =>
      intro hr prev s x hx c hc
      cases s with
      | nil => simp [mrun] at hx
      | cons d r2 =>
          simp only [mrun] at hx
          by_cases hp : p d = true
          · rw [if_pos hp] at hx
            simp only [List.mem_singleton] at hx
            subst hx
            simp only [List.mem_singleton] at hc
            subst hc
            exact hr c hp
          · rw [if_neg hp] at hx
            simp at hx
  | rep p lo hi =>
      intro hr prev s x hx c hc
      simp only [mrun] at hx
      by_cases hlt : repTop p hi s < lo
      · rw [if_pos hlt] at hx
        simp at hx
      · rw [if_neg hlt] at hx
        simp only [List.mem_map, List.mem_range] at hx
        obtain ⟨i, _, hix⟩ := hx
        subst hix
        have hn : repTop p hi s - i ≤ (s.takeWhile p).length := by
          cases hi <;> simp [repTop]
        exact hr c (mem_take_takeWhile p s _ hn c hc)
  | seq a b iha ihb =>
      intro hr prev s x hx c hc
      rw [mrun_seq_eq] at hx
      simp only [List.mem_flatMap, List.mem_map] at hx
      obtain ⟨y, hy, z, hz, hzx⟩ := hx
      subst hzx
      rcases List.mem_append.mp hc with hc | hc
      · exact iha hr.1 prev s y hy c hc
      · exact ihb hr.2 (lastChar prev y.1) y.2.2 z hz c hc
  | alt a b iha ihb =>
      intro hr prev s x hx c hc
      rw [mrun_alt_eq] at hx
      rcases List.mem_append.mp hx with hx | hx
      · exact iha hr.1 prev s x hx c hc
      · exact ihb hr.2 prev s x hx c hc
  | opt a iha =>
      intro hr prev s x hx c hc
      simp only [mrun] at hx
      rcases List.mem_append.mp hx with hx | hx
      · exact iha hr prev s x hx c hc
      · simp only [List.mem_singleton] at hx
        subst hx
        simp at hc
  | grp i a iha =>
      intro hr prev s x hx c hc
      simp only [mrun, List.mem_map] at hx
      obtain ⟨y, hy, hyx⟩ := hx
      subst hyx
      exact iha hr prev s y hy c hc
  | wb =>
      intro _ prev s x hx c hc
      simp only [mrun] at hx
      by_cases hcond : (isWordOpt s.head? != isWordOpt prev) = true
      · rw [if_pos hcond] at hx
        simp only [List.mem_singleton] at hx
        subst hx
        simp at hc
      · rw [if_neg hcond] at hx
        simp at hx

theorem avoidsWs_twitter1 : avoidsWs twitterRule1.re := by
  show avoidsWs (RE.seq (RE.alt
      (res [reScheme, reWww, RE.alt (rlit "twitter.com") (rlit "x.com"), rlit "/",
        RE.grp 1 (RE.rep wordChar 1 (some 15))])
      (res [rlit "@", RE.grp 2 (RE.rep wordChar 1 (some 15))]))
    RE.wb)
  simp only [res, List.foldr_cons, List.foldr_nil, reScheme, reWww, rlit, avoidsWs]
  repeat' apply And.intro
  all_goals first
    | trivial
    | decide
    | exact fun c hc => wordChar_not_ws c hc

theorem avoidsWs_instagram1 : avoidsWs instagramRule1.re := by
  show avoidsWs (RE.seq (RE.alt
      (res [reScheme, reWww, rlit "instagram.com/",
        RE.grp 1 (RE.rep instaChar 1 (some 30))])
      (res [rlit "@", RE.grp 2 (RE.rep instaChar 1 (some 30))]))
    RE.wb)
  simp only [res, List.foldr_cons, List.foldr_nil, reScheme, reWww, rlit, avoidsWs]
  repeat' apply And.intro
  all_goals first
    | trivial
    | decide
    | exact fun c hc => instaChar_not_ws c hc

theorem avoidsWs_tiktok1 : avoidsWs tiktokRule1.re := by
  show avoidsWs (RE.seq (RE.alt
      (res [reScheme, reWww, rlit "tiktok.com/", RE.opt (rlit "@"),
        RE.grp 1 (RE.rep instaChar 1 (some 24))])
      (res [rlit "@", RE.grp 2 (RE.rep instaChar 1 (some 24))]))
    RE.wb)
  simp only [res, List.foldr_cons, List.foldr_nil, reScheme, reWww, rlit, avoidsWs]
  repeat' apply And.intro
  all_goals first
    | trivial
    | decide
    | exact fun c hc => instaChar_not_ws c hc

theorem scanList_cons_empty (r : RE) (n : Nat) (prev : Option Char) (c : Char)
    (rest : List Char) (x : List Char × List (Nat × List Char) × List Char)
    (tl : List (List Char × List (Nat × List Char) × List Char))
    (h : mrun r prev (c :: rest) = x :: tl) (he : x.1.isEmpty = true) :
    scanList r n prev (c :: rest) =
      groupsOf n x.2.1 x.1 :: scanList r n (some c) rest := by
  rw [scanList_cons_eq, h]
  simp [he]

/-- At the position of the at sign the scan emits the bare-handle
item. -/
theorem scan_emit_at_handle (P : RE) (h rest : List Char)
    (hmatch : ∀ prev, ∃ tl, mrun P prev ('@' :: (h ++ rest)) =
      ('@' :: h, [(2, h)], rest) :: tl) (prev : Option Char) :
    ["", String.mk h] ∈ scanList P 2 prev ('@' :: (h ++ rest)) := by
  obtain ⟨tl, htl⟩ := hmatch prev
  rw [scanList_cons_match P 2 prev '@' (h ++ rest) _ tl htl rfl, groupsOf_two_at]
  exact List.mem_cons_self _ _

/-- The scan over any text that ends in a whitespace character
directly followed by the at-handle suffix reaches and emits the
bare-handle item: a pattern that consumes no whitespace can never
reach across the whitespace delimiter, so every earlier match ends
before it. -/
theorem scan_go (P : RE) (h rest : List Char) (w : Char) (hw : wsChar w = true)
    (hmatch : ∀ prev, ∃ tl, mrun P prev ('@' :: (h ++ rest)) =
      ('@' :: h, [(2, h)], rest) :: tl)
    (hws : ∀ prev s x, x ∈ mrun P prev s → ∀ c ∈ x.1, wsChar c = false) :
    ∀ (n : Nat) (u : List Char) (prev : Option Char), u.length ≤ n →
      (u = [] ∨ u.getLast? = some w) →
      ["", String.mk h] ∈ scanList P 2 prev (u ++ '@' :: (h ++ rest)) := by
  intro n
  induction n with
  | zero =>
      intro u prev hlen _
      have hu0 : u = [] := List.eq_nil_of_length_eq_zero (Nat.le_zero.mp hlen)
      subst hu0
      rw [List.nil_append]
      exact scan_emit_at_handle P h rest hmatch prev
  | succ n ih =>
      intro u prev hlen hu
      cases u with
      | nil =>
          rw [List.nil_append]
          exact scan_emit_at_handle P h rest hmatch prev
      | cons c u2 =>
          have hu2len : u2.length ≤ n := by
            simp only [List.length_cons] at hlen
            omega
          have hulast : (c :: u2).getLast? = some w := by
            rcases hu with h1 | h1
            · exact absurd h1 (by simp)
            · exact h1
          have hu2last : u2 = [] ∨ u2.getLast? = some w := by
            cases u2 with
            | nil => exact Or.inl rfl
            | cons d u3 =>
                refine Or.inr ?_
                rw [List.getLast?_cons_cons] at hulast
                exact hulast
          rw [List.cons_append]
          cases hm : mrun P prev (c :: (u2 ++ '@' :: (h ++ rest))) with
          | nil =>
              rw [scanList_cons_fail _ _ _ _ _ hm]
              exact ih u2 (some c) hu2len hu2last
          | cons x tl =>
              have hxmem : x ∈ mrun P prev (c :: (u2 ++ '@' :: (h ++ rest))) := by
                rw [hm]
                exact List.mem_cons_self _ _
              by_cases he : x.1.isEmpty = true
              · rw [scanList_cons_empty _ _ _ _ _ x tl hm he]
                exact List.mem_cons_of_mem _ (ih u2 (some c) hu2len hu2last)
              · have he2 : x.1.isEmpty = false := by
                  cases hxe : x.1.isEmpty
                  · rfl
                  · exact absurd hxe he
                have hne0 : x.1 ≠ [] := by
                  intro h0
                  rw [h0] at he2
                  simp at he2
                have hpos : 0 < x.1.length := List.length_pos.mpr hne0
                have happ := mrun_consumed_append P prev
                  (c :: (u2 ++ '@' :: (h ++ rest))) x hxmem
                have hlen2 : x.1.length ≤ u2.length := by
                  by_contra hgt
                  push_neg at hgt
                  have hpre1 : (c :: u2) <+: (c :: (u2 ++ '@' :: (h ++ rest))) :=
                    ⟨'@' :: (h ++ rest), by simp⟩
                  have hpre2 : x.1 <+: (c :: (u2 ++ '@' :: (h ++ rest))) := ⟨x.2.2, happ⟩
                  have hsub : (c :: u2) <+: x.1 :=
                    List.prefix_of_prefix_length_le hpre1 hpre2
                      (by simp only [List.length_cons]; omega)
                  have hwmem : w ∈ x.1 :=
                    hsub.subset (List.mem_of_mem_getLast? hulast)
                  have hwf := hws prev _ x hxmem w hwmem
                  rw [hwf] at hw
                  exact absurd hw (by decide)
                rw [scanList_cons_match _ _ _ _ _ x tl hm he2]
                refine List.mem_cons_of_mem _ ?_
                have hdrop : (u2 ++ '@' :: (h ++ rest)).drop (x.1.length - 1) =
                    u2.drop (x.1.length - 1) ++ '@' :: (h ++ rest) :=
                  List.drop_append_of_le_length (by omega)
                rw [hdrop]
                refine ih (u2.drop (x.1.length - 1)) (lastChar (some c) x.1) ?_ ?_
                · rw [List.length_drop]
                  omega
                · cases hd : u2.drop (x.1.length - 1) with
                  | nil => exact Or.inl rfl
                  | cons d u4 =>
                      refine Or.inr ?_
                      have hne4 : u2.drop (x.1.length - 1) ≠ [] := by
                        rw [hd]
                        simp
                      have hu2ne : u2 ≠ [] := by
                        intro h0
                        rw [h0] at hd
                        simp at hd
                      have hlast2 : u2.getLast? = some w := by
                        rcases hu2last with h1 | h1
                        · exact absurd h1 hu2ne
                        · exact h1
                      obtain ⟨t4, ht4⟩ := List.drop_suffix (x.1.length - 1) u2
                      rw [← hd]
                      calc (u2.drop (x.1.length - 1)).getLast?
                          = (t4 ++ u2.drop (x.1.length - 1)).getLast? :=
                            (List.getLast?_append_of_ne_nil _ hne4).symm
                        _ = u2.getLast? := by rw [ht4]
                        _ = some w := hlast2

/-- The scan of a whitespace-free pattern over any text in which the
at-handle suffix is preceded by the start of the text or by a
whitespace character emits the bare-handle item. -/
theorem scan_contains_handle (P : RE) (h rest pre : List Char)
    (hmatch : ∀ prev, ∃ tl, mrun P prev ('@' :: (h ++ rest)) =
      ('@' :: h, [(2, h)], rest) :: tl)
    (hws : ∀ prev s x, x ∈ mrun P prev s → ∀ c ∈ x.1, wsChar c = false)
    (hpre : pre = [] ∨ ∃ w, pre.getLast? = some w ∧ wsChar w = true) :
    ["", String.mk h] ∈ scanList P 2 none (pre ++ '@' :: (h ++ rest)) := by
  rcases hpre with rfl | ⟨w, hw1, hw2⟩
  · rw [List.nil_append]
    exact scan_emit_at_handle P h rest hmatch none
  · exact scan_go P h rest w hw2 hmatch hws pre.length pre none (le_refl _)
      (Or.inr hw1)

theorem mem_cleanValues_head (r1 : Rule) (rest2 : List Rule) (t : List Char) (s : String)
    (item : List String) (hitem1 : item ∈ findall r1.re r1.nGroups t)
    (hitem2 : s ∈ (item.map stripStr).filter (fun x => x ≠ "")) :
    s ∈ cleanValues (rawItems (r1 :: rest2) t) := by
  unfold cleanValues
  rw [dedupSeen_mem]
  refine ⟨?_, by simp⟩
  unfold rawItems flattenStrip
  rw [List.mem_flatMap]
  refine ⟨item, ?_, hitem2⟩
  simp only [List.map_cons, List.flatten_cons]
  apply List.mem_append_left
  unfold runRule listSet
  rw [dedupSeen_mem]
  exact ⟨hitem1, by simp⟩

/-- Claim C10: a bare at-handle token of one to fifteen word
characters, delimited on the left by the start of the text or a
whitespace character before the at sign — the text before that is
arbitrary — and on the right by the end of the text or a character
outside the handle classes, is reported in the twitter, instagram and
tiktok categories simultaneously: the bare-handle alternative is
shared by the three patterns, and none of them consumes whitespace, so
no earlier match reaches across the delimiter. -/
theorem bare_handle_three_categories_c10 (pre h post : List Char)
    (hpre : pre = [] ∨ ∃ w, pre.getLast? = some w ∧ wsChar w = true)
    (hne : h ≠ []) (hlen : h.length ≤ 15)
    (hword : ∀ c ∈ h, wordChar c = true)
    (hpost : ∀ c, post.head? = some c → instaChar c = false) :
    String.mk h ∈ ((extract_social_media
      (String.mk (pre ++ '@' :: (h ++ post)))).lookup "twitter").getD [] ∧
    String.mk h ∈ ((extract_social_media
      (String.mk (pre ++ '@' :: (h ++ post)))).lookup "instagram").getD [] ∧
    String.mk h ∈ ((extract_social_media
      (String.mk (pre ++ '@' :: (h ++ post)))).lookup "tiktok").getD [] := by
  have hrestW : ∀ c, post.head? = some c → wordChar c = false ∧ wordChar c = false :=
    fun c hc => ⟨instaChar_false_word c (hpost c hc), instaChar_false_word c (hpost c hc)⟩
  have hrestI : ∀ c, post.head? = some c → instaChar c = false ∧ wordChar c = false :=
    fun c hc => ⟨hpost c hc, instaChar_false_word c (hpost c hc)⟩
  have hallI : ∀ c ∈ h, instaChar c = true := fun c hc => wordChar_insta c (hword c hc)
  have hne2 : String.mk h ≠ "" := fun he => hne (congrArg String.data he)
  have hstriph : stripStr (String.mk h) = String.mk h := by
    unfold stripStr
    rw [show (String.mk h).toList = h from rfl,
      pyStrip_eq_self h (fun c hc => wordChar_not_ws c (hword c hc))]
  have hitem2 : String.mk h ∈
      ((["", String.mk h].map stripStr).filter (fun x => x ≠ "")) := by
    have h1 : stripStr "" = "" := rfl
    simp only [List.map_cons, List.map_nil, h1, hstriph]
    rw [List.mem_filter]
    refine ⟨by simp, by simp [hne2]⟩
  refine ⟨?_, ?_, ?_⟩
  · -- twitter
    have hmatch : ∀ prev, ∃ tl, mrun twitterRule1.re prev ('@' :: (h ++ post)) =
        ('@' :: h, [(2, h)], post) :: tl :=
      fun prev => mrun_at_arm_head _ wordChar 15 2 prev h post hne hlen hword hword hrestW
    have hscan := scan_contains_handle twitterRule1.re h post pre hmatch
      (mrun_avoidsWs twitterRule1.re avoidsWs_twitter1) hpre
    rw [show (extract_social_media (String.mk (pre ++ '@' :: (h ++ post)))).lookup
        "twitter" = some (cleanValues (rawItems [twitterRule1, twitterRule2]
          (String.mk (pre ++ '@' :: (h ++ post))).toList)) from
      lookup_map_assoc _ socialRules (by decide) _ _ (by simp [socialRules])]
    exact mem_cleanValues_head twitterRule1 [twitterRule2] _ _ _ hscan hitem2
  · -- instagram
    have hmatch : ∀ prev, ∃ tl, mrun instagramRule1.re prev ('@' :: (h ++ post)) =
        ('@' :: h, [(2, h)], post) :: tl :=
      fun prev => mrun_at_arm_head _ instaChar 30 2 prev h post hne (by omega) hallI
        hword hrestI
    have hscan := scan_contains_handle instagramRule1.re h post pre hmatch
      (mrun_avoidsWs instagramRule1.re avoidsWs_instagram1) hpre
    rw [show (extract_social_media (String.mk (pre ++ '@' :: (h ++ post)))).lookup
        "instagram" = some (cleanValues (rawItems [instagramRule1, instagramRule2]
          (String.mk (pre ++ '@' :: (h ++ post))).toList)) from
      lookup_map_assoc _ socialRules (by decide) _ _ (by simp [socialRules])]
    exact mem_cleanValues_head instagramRule1 [instagramRule2] _ _ _ hscan hitem2
  · -- tiktok
    have hmatch : ∀ prev, ∃ tl, mrun tiktokRule1.re prev ('@' :: (h ++ post)) =
        ('@' :: h, [(2, h)], post) :: tl :=
      fun prev => mrun_at_arm_head _ instaChar 24 2 prev h post hne (by omega) hallI
        hword hrestI
    have hscan := scan_contains_handle tiktokRule1.re h post pre hmatch
      (mrun_avoidsWs tiktokRule1.re avoidsWs_tiktok1) hpre
    rw [show (extract_social_media (String.mk (pre ++ '@' :: (h ++ post)))).lookup
        "tiktok" = some (cleanValues (rawItems [tiktokRule1, tiktokRule2]
          (String.mk (pre ++ '@' :: (h ++ post))).toList)) from
      lookup_map_assoc _ socialRules (by decide) _ _ (by simp [socialRules])]
    exact mem_cleanValues_head tiktokRule1 [tiktokRule2] _ _ _ hscan hitem2

/-- Witness for claim C10 on the concrete text check out at-jane bang:
an ordinary prefix of words ending in a space, the handle jane and a
trailing exclamation mark. -/
theorem bare_handle_three_categories_c10_witness :
    String.mk ['j', 'a', 'n', 'e'] ∈ ((extract_social_media
      (String.mk (['c', 'h', 'e', 'c', 'k', ' ', 'o', 'u', 't', ' '] ++
        '@' :: (['j', 'a', 'n', 'e'] ++ ['!'])))).lookup
        "twitter").getD [] ∧
    String.mk ['j', 'a', 'n', 'e'] ∈ ((extract_social_media
      (String.mk (['c', 'h', 'e', 'c', 'k', ' ', 'o', 'u', 't', ' '] ++
        '@' :: (['j', 'a', 'n', 'e'] ++ ['!'])))).lookup
        "instagram").getD [] ∧
    String.mk ['j', 'a', 'n', 'e'] ∈ ((extract_social_media
      (String.mk (['c', 'h', 'e', 'c', 'k', ' ', 'o', 'u', 't', ' '] ++
        '@' :: (['j', 'a', 'n', 'e'] ++ ['!'])))).lookup
        "tiktok").getD [] :=
  bare_handle_three_categories_c10
    ['c', 'h', 'e', 'c', 'k', ' ', 'o', 'u', 't', ' '] ['j', 'a', 'n', 'e'] ['!']
    (Or.inr ⟨' ', by decide, by decide⟩) (by decide) (by decide) (by decide) (by decide)

/-- Witness for claim C8 at the email category of a concrete text. -/
theorem extract_values_clean_c8_witness :
    (cleanValues (rawItems [emailRule] ("A@b.co a@b.co" : String).toList)).Nodup ∧
    ∀ s ∈ cleanValues (rawItems [emailRule] ("A@b.co a@b.co" : String).toList),
      s ≠ "" ∧ stripStr s = s ∧ ¬ (∀ c ∈ s.toList, wsChar c = true) :=
  extract_values_clean_c8 "A@b.co a@b.co" "email"
    (cleanValues (rawItems [emailRule] ("A@b.co a@b.co" : String).toList))
    (List.mem_map_of_mem _ (List.mem_cons_self _ _))

/-! ### Helper lemmas for the scoring theorems -/

theorem round2_nonneg (x : ℚ) (hx : 0 ≤ x) : 0 ≤ round2 x := by
  unfold round2
  have h1 : (0 : ℤ) ≤ round (100 * x) := by
    rw [round_eq]
    exact Int.le_floor.mpr (by push_cast; linarith)
  positivity

theorem round2_le_hundred (x : ℚ) (hx : x ≤ 100) : round2 x ≤ 100 := by
  unfold round2
  rw [round_eq]
  have h1 : ⌊100 * x + 1 / 2⌋ ≤ (10000 : ℤ) := by
    have h2 : ⌊100 * x + 1 / 2⌋ ≤ ⌊(10000 : ℚ) + 1 / 2⌋ :=
      Int.floor_le_floor (by linarith)
    have h3 : ⌊(10000 : ℚ) + 1 / 2⌋ = 10000 := by norm_num
    omega
  rw [div_le_iff₀ (by norm_num : (0 : ℚ) < 100)]
  calc ((⌊100 * x + 1 / 2⌋ : ℤ) : ℚ) ≤ ((10000 : ℤ) : ℚ) := by exact_mod_cast h1
    _ = 100 * 100 := by norm_num

theorem rate_nonneg (n V : ℕ) : 0 ≤ (if 0 < V then (n : ℚ) / V * 100 else 0) := by
  split
  · positivity
  · exact le_refl 0

theorem virality_bounds (V L C : ℕ) (days : Option ℤ) (tc dl : ℕ) :
    0 ≤ calculate_virality_score V L C days tc dl ∧
      calculate_virality_score V L C days tc dl ≤ 100 := by
  unfold calculate_virality_score
  have hbase : (0 : ℚ) ≤ (if 0 < V then ((L : ℚ) + C) / V * 100 else 0) := by
    split
    · positivity
    · exact le_refl 0
  have hage : (0 : ℚ) ≤ (match days with
      | some d => max 0 (1 - (d : ℚ) / 365)
      | none => 1/2) := by
    cases days with
    | none => norm_num
    | some d => exact le_max_left 0 _
  have hcq : (0 : ℚ) ≤ 1 + (if 0 < tc then 1/5 else 0) + (if 100 < dl then 1/5 else 0) := by
    split <;> split <;> norm_num
  constructor
  · exact le_min (by norm_num) (by positivity)
  · exact min_le_left _ _

theorem retention_bounds (V L : ℕ) (dur : Option ℕ) :
    5 ≤ simulate_audience_retention V L dur ∧
      simulate_audience_retention V L dur ≤ 95 := by
  unfold simulate_audience_retention
  exact ⟨le_min (by norm_num) (le_max_left 5 _), min_le_left _ _⟩

/-- Claim C6: with zero views the engagement scorer performs no
division and returns zero rates, zero score and the level low. -/
theorem engagement_zero_views_c6 (L C : ℕ) (days : Option ℤ) (tc dl : ℕ) :
    (calculate_engagement_metrics 0 L C days tc dl).like_rate = 0 ∧
    (calculate_engagement_metrics 0 L C days tc dl).comment_rate = 0 ∧
    (calculate_engagement_metrics 0 L C days tc dl).total_engagement_rate = 0 ∧
    (calculate_engagement_metrics 0 L C days tc dl).engagement_score = 0 ∧
    (calculate_engagement_metrics 0 L C days tc dl).engagement_level = "low" := by
  unfold calculate_engagement_metrics
  norm_num [round2, round_eq]

/-- Unfolding of the engagement scorer for a positive view count. -/
theorem calculate_engagement_metrics_pos (V L C : ℕ) (days : Option ℤ) (tc dl : ℕ)
    (hV : 0 < V) :
    calculate_engagement_metrics V L C days tc dl =
      { like_rate := round2 ((L : ℚ) / V * 100)
        comment_rate := round2 ((C : ℚ) / V * 100)
        total_engagement_rate := round2 (((L : ℚ) + C) / V * 100)
        engagement_score := round2 (min 100 ((L : ℚ) / V * 100 * 2 + (C : ℚ) / V * 100 * 10))
        engagement_level :=
          if 70 ≤ min 100 ((L : ℚ) / V * 100 * 2 + (C : ℚ) / V * 100 * 10) then "high"
          else if 30 ≤ min 100 ((L : ℚ) / V * 100 * 2 + (C : ℚ) / V * 100 * 10) then "medium"
          else "low"
        virality_score := round2 (calculate_virality_score V L C days tc dl) } := by
  simp only [calculate_engagement_metrics, if_pos hV]

/-- Counterexample for claim C2 as stated: at view_count 100000,
like_count 34998, comment_count 0 the returned engagement_score is
the rounded value 70 while engagement_level is medium, because the
level thresholds are applied to the score before rounding (69.996);
so the claimed equivalence between level high and a returned score of
at least 70 fails on the code. -/
theorem engagement_level_rounding_c2_cex :
    (calculate_engagement_metrics 100000 34998 0 none 0 0).engagement_score = 70 ∧
    (calculate_engagement_metrics 100000 34998 0 none 0 0).engagement_level = "medium" ∧
    ¬ ((calculate_engagement_metrics 100000 34998 0 none 0 0).engagement_level = "high" ↔
      70 ≤ (calculate_engagement_metrics 100000 34998 0 none 0 0).engagement_score) := by
  have hsc : (calculate_engagement_metrics 100000 34998 0 none 0 0).engagement_score = 70 := by
    norm_num [calculate_engagement_metrics, round2, round_eq]
  have hlv : (calculate_engagement_metrics 100000 34998 0 none 0 0).engagement_level =
      "medium" := by
    norm_num [calculate_engagement_metrics]
  refine ⟨hsc, hlv, ?_⟩
  intro hiff
  have h70 : (70 : ℚ) ≤ (calculate_engagement_metrics 100000 34998 0 none 0 0).engagement_score := by
    rw [hsc]
  have := hiff.mpr h70
  rw [hlv] at this
  exact absurd this (by decide)

/-- Claim C2 as amended: the rate fields are the rounded exact rates,
the returned engagement_score is the rounded clamp value, and the
engagement_level is determined by the clamp value before rounding,
with thresholds 70 and 30. -/
theorem engagement_metrics_formulas_c2 (V L C : ℕ) (days : Option ℤ) (tc dl : ℕ)
    (hV : 0 < V) :
    (calculate_engagement_metrics V L C days tc dl).like_rate =
      round2 ((L : ℚ) / V * 100) ∧
    (calculate_engagement_metrics V L C days tc dl).comment_rate =
      round2 ((C : ℚ) / V * 100) ∧
    (calculate_engagement_metrics V L C days tc dl).total_engagement_rate =
      round2 (((L : ℚ) + C) / V * 100) ∧
    (calculate_engagement_metrics V L C days tc dl).engagement_score =
      round2 (min 100 ((L : ℚ) / V * 100 * 2 + (C : ℚ) / V * 100 * 10)) ∧
    ((calculate_engagement_metrics V L C days tc dl).engagement_level = "high" ↔
      70 ≤ min 100 ((L : ℚ) / V * 100 * 2 + (C : ℚ) / V * 100 * 10)) ∧
    ((calculate_engagement_metrics V L C days tc dl).engagement_level = "medium" ↔
      (30 ≤ min 100 ((L : ℚ) / V * 100 * 2 + (C : ℚ) / V * 100 * 10) ∧
       min 100 ((L : ℚ) / V * 100 * 2 + (C : ℚ) / V * 100 * 10) < 70)) ∧
    ((calculate_engagement_metrics V L C days tc dl).engagement_level = "low" ↔
      min 100 ((L : ℚ) / V * 100 * 2 + (C : ℚ) / V * 100 * 10) < 30) := by
  rw [calculate_engagement_metrics_pos V L C days tc dl hV]
  refine ⟨rfl, rfl, rfl, rfl, ?_, ?_, ?_⟩
  · by_cases h70 : (70 : ℚ) ≤ min 100 ((L : ℚ) / V * 100 * 2 + (C : ℚ) / V * 100 * 10)
    · simp [h70]
    · simp only [if_neg h70]
      constructor
      · intro h
        split at h <;> simp_all
      · intro h
        exact absurd h h70
  · by_cases h70 : (70 : ℚ) ≤ min 100 ((L : ℚ) / V * 100 * 2 + (C : ℚ) / V * 100 * 10)
    · simp only [if_pos h70]
      constructor
      · intro h; exact absurd h (by decide)
      · rintro ⟨-, h⟩; linarith
    · by_cases h30 : (30 : ℚ) ≤ min 100 ((L : ℚ) / V * 100 * 2 + (C : ℚ) / V * 100 * 10)
      · simp only [if_neg h70, if_pos h30]
        constructor
        · intro _; exact ⟨h30, by linarith [not_le.mp h70]⟩
        · intro _; trivial
      · simp only [if_neg h70, if_neg h30]
        constructor
        · intro h; exact absurd h (by decide)
        · rintro ⟨h, -⟩; exact absurd h h30
  · by_cases h70 : (70 : ℚ) ≤ min 100 ((L : ℚ) / V * 100 * 2 + (C : ℚ) / V * 100 * 10)
    · simp only [if_pos h70]
      constructor
      · intro h; exact absurd h (by decide)
      · intro h; linarith
    · by_cases h30 : (30 : ℚ) ≤ min 100 ((L : ℚ) / V * 100 * 2 + (C : ℚ) / V * 100 * 10)
      · simp only [if_neg h70, if_pos h30]
        constructor
        · intro h; exact absurd h (by decide)
        · intro h; linarith
      · simp only [if_neg h70, if_neg h30]
        exact ⟨fun _ => not_le.mp h30, fun _ => trivial⟩

/-- Witness for the amended claim C2 at the scenario of the
specification: view_count 1000, like_count 50, comment_count 10. -/
theorem engagement_metrics_formulas_c2_witness :
    (calculate_engagement_metrics 1000 50 10 none 0 0).like_rate =
      round2 ((50 : ℚ) / 1000 * 100) ∧
    (calculate_engagement_metrics 1000 50 10 none 0 0).engagement_level = "low" := by
  have h := engagement_metrics_formulas_c2 1000 50 10 none 0 0 (by norm_num)
  refine ⟨h.1, h.2.2.2.2.2.2.mpr ?_⟩
  norm_num

/-- Counterexample for claim C3 as stated: with zero views, one like
and zero duration the code returns 5 while the claimed formula with
the max guard returns 95; the code uses a zero engagement ratio when
view_count is zero, not the ratio L over max(1, V). -/
theorem retention_zero_views_c3_cex :
    simulate_audience_retention 0 1 (some 0) = 5 ∧
    retentionSpecFormula 0 1 0 = 95 ∧
    simulate_audience_retention 0 1 (some 0) ≠ retentionSpecFormula 0 1 0 := by
  have h1 : simulate_audience_retention 0 1 (some 0) = 5 := by
    norm_num [simulate_audience_retention]
  have h2 : retentionSpecFormula 0 1 0 = 95 := by
    norm_num [retentionSpecFormula, clampQ]
  refine ⟨h1, h2, ?_⟩
  rw [h1, h2]
  norm_num

/-- Claim C3 as amended: for positive view counts the code agrees
with the claimed clamp formula; with zero views the engagement ratio
is zero and the result is the lower clamp 5; the result always lies
between 5 and 95. -/
theorem retention_formula_c3 (V L d : ℕ) :
    (0 < V → simulate_audience_retention V L (some d) = retentionSpecFormula V L d) ∧
    (V = 0 → simulate_audience_retention V L (some d) = 5) ∧
    5 ≤ simulate_audience_retention V L (some d) ∧
    simulate_audience_retention V L (some d) ≤ 95 := by
  refine ⟨?_, ?_, (retention_bounds V L (some d)).1, (retention_bounds V L (some d)).2⟩
  · intro hV
    unfold simulate_audience_retention retentionSpecFormula clampQ
    rw [if_pos hV]
    have hmax : max 1 (V : ℚ) = (V : ℚ) := max_eq_right (by exact_mod_cast hV)
    rw [hmax]
    have hd : (0 : ℚ) ≤ (d : ℚ) / 3600 := by positivity
    have hdf : min 1 (max (3/10) (1 - (d : ℚ) / 3600)) = max (3/10) (1 - (d : ℚ) / 3600) :=
      min_eq_right (max_le (by norm_num) (by linarith))
    rw [hdf]
    ring_nf
  · intro h0
    subst h0
    unfold simulate_audience_retention
    norm_num

/-- Witness for the amended claim C3 at a concrete positive view
count. -/
theorem retention_formula_c3_witness :
    simulate_audience_retention 1000 50 (some 600) = retentionSpecFormula 1000 50 600 :=
  (retention_formula_c3 1000 50 600).1 (by norm_num)

/-- Counterexample for claim C4 as stated: with a publish date 365
days in the future the age factor of the code is 2, not clamped to 1,
so the code returns 20 where the claimed formula returns 10. -/
theorem virality_age_clamp_c4_cex :
    calculate_virality_score 1000 100 0 (some (-365)) 0 0 = 20 ∧
    viralitySpecFormula 1000 100 0 (-365) 0 0 = 10 ∧
    calculate_virality_score 1000 100 0 (some (-365)) 0 0 ≠
      viralitySpecFormula 1000 100 0 (-365) 0 0 := by
  have h1 : calculate_virality_score 1000 100 0 (some (-365)) 0 0 = 20 := by
    norm_num [calculate_virality_score]
  have h2 : viralitySpecFormula 1000 100 0 (-365) 0 0 = 10 := by
    norm_num [viralitySpecFormula, clampQ]
  refine ⟨h1, h2, ?_⟩
  rw [h1, h2]
  norm_num

/-- Claim C4 as amended: the age factor is max(0, 1 - days/365) with
no upper clamp, which coincides with the claimed clamp into the unit
interval whenever days is non-negative; the returned virality_score
field is the value rounded to two decimals and lies between 0 and
100. -/
theorem virality_formula_c4 (V L C : ℕ) (d : ℤ) (days : Option ℤ) (tc dl : ℕ) :
    (0 ≤ d → calculate_virality_score V L C (some d) tc dl =
      viralitySpecFormula V L C d tc dl) ∧
    (calculate_engagement_metrics V L C days tc dl).virality_score =
      round2 (calculate_virality_score V L C days tc dl) ∧
    0 ≤ (calculate_engagement_metrics V L C days tc dl).virality_score ∧
    (calculate_engagement_metrics V L C days tc dl).virality_score ≤ 100 := by
  have hb := virality_bounds V L C days tc dl
  refine ⟨?_, rfl, ?_, ?_⟩
  · intro hd
    simp only [calculate_virality_score, viralitySpecFormula, clampQ]
    have hbase : (0 : ℚ) ≤ (if 0 < V then ((L : ℚ) + C) / V * 100 else 0) := by
      split
      · positivity
      · exact le_refl 0
    have hdq : (0 : ℚ) ≤ (d : ℚ) / 365 := by
      apply div_nonneg _ (by norm_num)
      exact_mod_cast hd
    have hage : min 1 (max 0 (1 - (d : ℚ) / 365)) = max 0 (1 - (d : ℚ) / 365) :=
      min_eq_right (max_le (by norm_num) (by linarith))
    rw [hage]
    have hcq : (0 : ℚ) ≤ 1 + (if 0 < tc then 1/5 else 0) + (if 100 < dl then 1/5 else 0) := by
      split <;> split <;> norm_num
    have hprod : (0 : ℚ) ≤ (if 0 < V then ((L : ℚ) + C) / V * 100 else 0) *
        max 0 (1 - (d : ℚ) / 365) *
        (1 + (if 0 < tc then 1/5 else 0) + (if 100 < dl then 1/5 else 0)) := by
      have := le_max_left (0 : ℚ) (1 - (d : ℚ) / 365)
      positivity
    rw [max_eq_right hprod]
  · exact round2_nonneg _ hb.1
  · exact round2_le_hundred _ hb.2

/-- Witness for the amended claim C4 at a concrete non-negative
age. -/
theorem virality_formula_c4_witness :
    calculate_virality_score 1000 100 0 (some 100) 2 200 =
      viralitySpecFormula 1000 100 0 100 2 200 :=
  (virality_formula_c4 1000 100 0 100 (some 100) 2 200).1 (by norm_num)

/-- Claim C5: the performance score is the weighted sum of the
logarithmic view score and the engagement component, each clamped to
100 from above and non-negative below; the category thresholds are
80, 60 and 40; and the scenario with one million views, fifty
thousand likes and five thousand comments scores 58, category
Average. -/
theorem performance_score_c5 :
    (∀ V L C : ℕ, calculate_performance_score V L C =
      0.6 * min 100 (Real.logb 10 (max 1 (V : ℝ)) * 10) +
      0.4 * min 100 (((L : ℝ) + C) / max 1 (V : ℝ) * 1000)) ∧
    (∀ s : ℝ, (get_performance_category s = "Excellent" ↔ 80 ≤ s) ∧
      (get_performance_category s = "Good" ↔ 60 ≤ s ∧ s < 80) ∧
      (get_performance_category s = "Average" ↔ 40 ≤ s ∧ s < 60) ∧
      (get_performance_category s = "Below Average" ↔ s < 40)) ∧
    calculate_performance_score 1000000 50000 5000 = 58 ∧
    get_performance_category (calculate_performance_score 1000000 50000 5000) =
      "Average" := by
  have hlogb : Real.logb 10 (1000000 : ℝ) = 6 := by
    rw [show (1000000 : ℝ) = 10 ^ (6 : ℕ) by norm_num, Real.logb, Real.log_pow]
    have h3 : Real.log 10 ≠ 0 := ne_of_gt (Real.log_pos (by norm_num))
    field_simp
  have hscen : calculate_performance_score 1000000 50000 5000 = 58 := by
    simp only [calculate_performance_score]
    norm_num [hlogb]
  have hcat : ∀ s : ℝ, (get_performance_category s = "Excellent" ↔ 80 ≤ s) ∧
      (get_performance_category s = "Good" ↔ 60 ≤ s ∧ s < 80) ∧
      (get_performance_category s = "Average" ↔ 40 ≤ s ∧ s < 60) ∧
      (get_performance_category s = "Below Average" ↔ s < 40) := by
    intro s
    unfold get_performance_category
    by_cases h80 : (80 : ℝ) ≤ s
    · simp only [if_pos h80]
      refine ⟨by simp [h80], ?_, ?_, ?_⟩
      · constructor
        · intro h; exact absurd h (by decide)
        · rintro ⟨-, h⟩; linarith
      · constructor
        · intro h; exact absurd h (by decide)
        · rintro ⟨-, h⟩; linarith
      · constructor
        · intro h; exact absurd h (by decide)
        · intro h; linarith
    · by_cases h60 : (60 : ℝ) ≤ s
      · simp only [if_neg h80, if_pos h60]
        refine ⟨?_, ?_, ?_, ?_⟩
        · constructor
          · intro h; exact absurd h (by decide)
          · intro h; linarith
        · exact ⟨fun _ => ⟨h60, not_le.mp h80⟩, fun _ => trivial⟩
        · constructor
          · intro h; exact absurd h (by decide)
          · rintro ⟨-, h⟩; linarith
        · constructor
          · intro h; exact absurd h (by decide)
          · intro h; linarith
      · by_cases h40 : (40 : ℝ) ≤ s
        · simp only [if_neg h80, if_neg h60, if_pos h40]
          refine ⟨?_, ?_, ?_, ?_⟩
          · constructor
            · intro h; exact absurd h (by decide)
            · intro h; linarith
          · constructor
            · intro h; exact absurd h (by decide)
            · rintro ⟨h, -⟩; exact absurd h h60
          · exact ⟨fun _ => ⟨h40, not_le.mp h60⟩, fun _ => trivial⟩
          · constructor
            · intro h; exact absurd h (by decide)
            · intro h; linarith
        · simp only [if_neg h80, if_neg h60, if_neg h40]
          refine ⟨?_, ?_, ?_, ?_⟩
          · constructor
            · intro h; exact absurd h (by decide)
            · intro h; linarith
          · constructor
            · intro h; exact absurd h (by decide)
            · rintro ⟨h, -⟩; linarith
          · constructor
            · intro h; exact absurd h (by decide)
            · rintro ⟨h, -⟩; exact absurd h h40
          · exact ⟨fun _ => not_le.mp h40, fun _ => trivial⟩
  refine ⟨?_, hcat, hscen, ?_⟩
  · intro V L C
    simp only [calculate_performance_score]
    ring
  · rw [hscen]
    exact ((hcat 58).2.2.1).mpr (by norm_num)

/-- Claim C9: all scores stay inside their documented ranges: the
rounded engagement and virality scores, the performance score, the
content effectiveness and the growth potential lie between 0 and 100,
and the audience retention lies between 5 and 95; the growth
potential carries no clamp of its own yet stays inside the range
whenever its three inputs do. -/
theorem scores_bounded_c9 :
    (∀ V L C : ℕ, ∀ days : Option ℤ, ∀ tc dl : ℕ,
      0 ≤ (calculate_engagement_metrics V L C days tc dl).engagement_score ∧
      (calculate_engagement_metrics V L C days tc dl).engagement_score ≤ 100 ∧
      0 ≤ (calculate_engagement_metrics V L C days tc dl).virality_score ∧
      (calculate_engagement_metrics V L C days tc dl).virality_score ≤ 100) ∧
    (∀ V L C : ℕ, 0 ≤ calculate_performance_score V L C ∧
      calculate_performance_score V L C ≤ 100) ∧
    (∀ dl tc : ℕ, ∀ cap : String, 0 ≤ calculate_content_effectiveness dl tc cap ∧
      calculate_content_effectiveness dl tc cap ≤ 100) ∧
    (∀ V L : ℕ, ∀ dur : Option ℕ, 5 ≤ simulate_audience_retention V L dur ∧
      simulate_audience_retention V L dur ≤ 95) ∧
    (∀ e v p : ℚ, 0 ≤ e → e ≤ 100 → 0 ≤ v → v ≤ 100 → 0 ≤ p → p ≤ 100 →
      0 ≤ calculate_growth_potential e v p ∧ calculate_growth_potential e v p ≤ 100) := by
  refine ⟨?_, ?_, ?_, ?_, ?_⟩
  · intro V L C days tc dl
    have hlr := rate_nonneg L V
    have hcr := rate_nonneg C V
    have hraw : (0 : ℚ) ≤ min 100 ((if 0 < V then (L : ℚ) / V * 100 else 0) * 2 +
        (if 0 < V then (C : ℚ) / V * 100 else 0) * 10) :=
      le_min (by norm_num) (by nlinarith)
    have hraw2 : min 100 ((if 0 < V then (L : ℚ) / V * 100 else 0) * 2 +
        (if 0 < V then (C : ℚ) / V * 100 else 0) * 10) ≤ 100 := min_le_left _ _
    have hvb := virality_bounds V L C days tc dl
    have hes : (calculate_engagement_metrics V L C days tc dl).engagement_score =
        round2 (min 100 ((if 0 < V then (L : ℚ) / V * 100 else 0) * 2 +
          (if 0 < V then (C : ℚ) / V * 100 else 0) * 10)) := rfl
    have hvs : (calculate_engagement_metrics V L C days tc dl).virality_score =
        round2 (calculate_virality_score V L C days tc dl) := rfl
    rw [hes, hvs]
    exact ⟨round2_nonneg _ hraw, round2_le_hundred _ hraw2,
      round2_nonneg _ hvb.1, round2_le_hundred _ hvb.2⟩
  · intro V L C
    simp only [calculate_performance_score]
    have hmax : (1 : ℝ) ≤ max 1 (V : ℝ) := le_max_left 1 _
    have hlb : (0 : ℝ) ≤ Real.logb 10 (max 1 (V : ℝ)) :=
      Real.logb_nonneg (by norm_num) hmax
    have hvs1 : (0 : ℝ) ≤ min 100 (Real.logb 10 (max 1 (V : ℝ)) * 10) :=
      le_min (by norm_num) (by nlinarith)
    have hvs2 : min 100 (Real.logb 10 (max 1 (V : ℝ)) * 10) ≤ 100 := min_le_left _ _
    have hec0 : (0 : ℝ) ≤ ((L : ℝ) + C) / max 1 (V : ℝ) * 1000 := by positivity
    have hec1 : (0 : ℝ) ≤ min 100 (((L : ℝ) + C) / max 1 (V : ℝ) * 1000) :=
      le_min (by norm_num) hec0
    have hec2 : min 100 (((L : ℝ) + C) / max 1 (V : ℝ) * 1000) ≤ 100 := min_le_left _ _
    constructor <;> nlinarith
  · intro dl tc cap
    simp only [calculate_content_effectiveness]
    have hd1 : (0 : ℚ) ≤ min 100 ((dl : ℚ) / 10) := le_min (by norm_num) (by positivity)
    have hd2 : min 100 ((dl : ℚ) / 10) ≤ 100 := min_le_left _ _
    have ht1 : (0 : ℚ) ≤ min 100 ((tc : ℚ) * 10) := le_min (by norm_num) (by positivity)
    have ht2 : min 100 ((tc : ℚ) * 10) ≤ 100 := min_le_left _ _
    have hc1 : (0 : ℚ) ≤ (if cap == "true" then (20 : ℚ) else 0) := by
      split <;> norm_num
    have hc2 : (if cap == "true" then (20 : ℚ) else 0) ≤ 20 := by
      split <;> norm_num
    constructor <;> nlinarith
  · intro V L dur
    exact retention_bounds V L dur
  · intro e v p he1 he2 hv1 hv2 hp1 hp2
    simp only [calculate_growth_potential]
    constructor <;> nlinarith

/-- Witness for claim C9, instantiating the growth-potential bound at
the scores of the scenario of the specification. -/
theorem scores_bounded_c9_witness :
    0 ≤ calculate_growth_potential 20 10 58 ∧
      calculate_growth_potential 20 10 58 ≤ 100 :=
  scores_bounded_c9.2.2.2.2 20 10 58 (by norm_num) (by norm_num) (by norm_num)
    (by norm_num) (by norm_num) (by norm_num)

end YtOsint
